import Mathlib

/-!
# Verification of the lyric-to-tree grouping core of the Mindstrike repository

This file gives a shallow embedding, in Lean 4, of the text-analysis core of the
repository: the line normalizer, the discourse-marker detector, the discourse-run
merging pass, the stem grouper and tree builder of `src/unnamed/part_000`
(`buildMindmapTree` / `groupByStem`), and the repeated-block finder and branching
tree builder of `src/mindmap.js` (`findRepeatedBlocks` /
`buildBranchingMindmapTree`).  Strings are embedded as `List Char`; JavaScript
objects with optional fields become Lean structures with `Option` fields; object
maps with string keys (insertion-ordered in JavaScript) become insertion-ordered
association lists.  All definitions are executable.
-/

/-- The apostrophe character (code 39). -/
def apos : Char := Char.ofNat 39

/-- Characters kept by `normalizeLine` (`[a-zA-Z0-9' ]`): ASCII letters, digits,
apostrophe and space. -/
def allowedChar (c : Char) : Bool :=
  c.isAlpha || c.isDigit || c = apos || c = ' '

/-- Drop leading and trailing space characters.  Mirrors JavaScript
`String.prototype.trim` as applied after the punctuation filter, where the only
whitespace left is the space character. -/
def trimSpaces (l : List Char) : List Char :=
  ((l.dropWhile (· = ' ')).reverse.dropWhile (· = ' ')).reverse

/-- `normalizeLine` from the source: remove every character other than ASCII
letters, digits, apostrophe and space, trim, and lowercase.
(JavaScript `toLowerCase` is modelled on the ASCII range by `Char.toLower`;
all non-ASCII characters have already been removed by the filter.) -/
def normalizeLine (l : List Char) : List Char :=
  (trimSpaces (l.filter allowedChar)).map Char.toLower

example : normalizeLine "  Hey, Jude! ".data = "hey jude".data := by decide

example : normalizeLine "na-na-na".data = "nanana".data := by decide

/-!
## Discourse detector (`isDiscourseMarkerLine`)

The source tests the normalized line against the regular expression
`^(marker[ -]?)+$` (flag `i`), i.e. one or more repetitions of the marker word,
each optionally followed by a single space or hyphen.  All markers are nonempty
all-letter lowercase words and the normalized line is lowercase, so the `i`
flag has no effect and matching is deterministic: after a full occurrence of
the marker, a space or hyphen (which cannot begin the marker) must belong to
the current repetition, and anything else must begin the next occurrence.
`runAux m need s` matches `s` against the remaining characters `need` of the
current occurrence of `m`, then continues with further occurrences.
-/
def runAux (m : List Char) : List Char → List Char → Bool
  | d :: need, c :: rest => if c = d then runAux m need rest else false
  | _ :: _, [] => false
  | [], [] => true
  | [], c :: rest =>
    if c = ' ' || c = '-' then
      -- the separator closes the current repetition; afterwards the string
      -- must end or another occurrence of the marker must start
      match rest with
      | [] => true
      | c2 :: rest2 =>
        match m with
        | [] => false
        | d :: m2 => if c2 = d then runAux m m2 rest2 else false
    else
      match m with
      | [] => false
      | d :: m2 => if c = d then runAux m m2 rest else false

/-- `^(m[ -]?)+$`: the whole string is one or more repetitions of the (nonempty)
marker `m`, each optionally followed by one space or hyphen. -/
def markerRun (m s : List Char) : Bool :=
  match m, s with
  | [], _ => false
  | _ :: _, [] => false
  | d :: m2, c :: rest => if c = d then runAux m m2 rest else false

/-- Helper for `countOccs`: scan the string one character at a time; `skip`
counts characters still to pass over inside an occurrence already matched. -/
def countAux (m : List Char) : Nat → List Char → Nat
  | _, [] => 0
  | k + 1, _ :: rest => countAux m k rest
  | 0, c :: rest =>
    if m ≠ [] ∧ m.isPrefixOf (c :: rest) then
      -- a (nonempty) occurrence starts here: count it and skip its remaining
      -- `m.length - 1` characters
      1 + countAux m (m.length - 1) rest
    else
      countAux m 0 rest

/-- Number of non-overlapping occurrences of `m`, scanning left to right:
`(norm.match(new RegExp(marker, "gi")) || []).length` for a literal marker. -/
def countOccs (m s : List Char) : Nat := countAux m 0 s

/-- Result of the discourse detector: the matched marker and repetition count. -/
structure DM where
  marker : List Char
  count : Nat
deriving DecidableEq, Repr

/-- The default marker list of the source. -/
def DISCOURSE_MARKERS : List (List Char) :=
  ["na".data, "la".data, "oh".data, "yeah".data, "woah".data,
   "hey".data, "uh".data, "woo".data, "ha".data, "mm".data]

/-- `isDiscourseMarkerLine` from the source: try the markers in list order on
the normalized line; the first marker whose run-pattern matches wins, and the
reported count is the number of occurrences of that marker in the normalized
line. -/
def isDiscourseMarkerLine (line : List Char) (markerList : List (List Char)) :
    Option DM :=
  let norm := normalizeLine line
  markerList.findSome? fun m =>
    if markerRun m norm then some ⟨m, countOccs m norm⟩ else none

example : isDiscourseMarkerLine "na na na na".data DISCOURSE_MARKERS
    = some ⟨"na".data, 4⟩ := by decide
example : isDiscourseMarkerLine "Na-na-na".data DISCOURSE_MARKERS
    = some ⟨"na".data, 3⟩ := by decide
example : isDiscourseMarkerLine "Hey Jude".data DISCOURSE_MARKERS = none := by
  decide
example : isDiscourseMarkerLine "woo woo".data ["woah".data] = none := by decide

/-!
## Input splitting and filtering

`lyrics.split(/\r?\n/).map(l => l.trim()).filter(l => l && !l.match(/^\[.*\]$/))`
-/

/-- Split on `\r?\n`: a line feed, optionally preceded by a carriage return,
separates lines; a lone carriage return stays inside the line. -/
def splitLinesAux : List Char → List Char → List (List Char)
  | acc, [] => [acc.reverse]
  | acc, '\n' :: rest => acc.reverse :: splitLinesAux [] rest
  | acc, '\r' :: '\n' :: rest => acc.reverse :: splitLinesAux [] rest
  | acc, c :: rest => splitLinesAux (c :: acc) rest

def splitLines (l : List Char) : List (List Char) := splitLinesAux [] l

/-- The ASCII whitespace characters removed by JavaScript
`String.prototype.trim` (space, tab, line feed, carriage return, vertical tab,
form feed). -/
def jsWhitespace (c : Char) : Bool :=
  c = ' ' || c = '\t' || c = '\n' || c = '\r' ||
  c = Char.ofNat 11 || c = Char.ofNat 12

/-- JavaScript `trim` on a raw input line. -/
def jsTrim (l : List Char) : List Char :=
  ((l.dropWhile jsWhitespace).reverse.dropWhile jsWhitespace).reverse

/-- `/^\[.*\]$/`: the whole line is one bracketed tag — first character `[`,
last character `]`, and (`.` not matching line terminators) no line-terminator
character in between. -/
def isBracketTag (l : List Char) : Bool :=
  match l with
  | '[' :: rest =>
    rest ≠ [] && rest.getLast? = some ']' &&
    rest.dropLast.all fun c =>
      c ≠ '\n' && c ≠ '\r' && c ≠ Char.ofNat 0x2028 && c ≠ Char.ofNat 0x2029
  | _ => false

/-- The filtered input lines the tree builders start from. -/
def rawLinesOf (lyrics : List Char) : List (List Char) :=
  ((splitLines lyrics).map jsTrim).filter fun l => l ≠ [] && !isBracketTag l

example : rawLinesOf "".data = [] := by decide
example : rawLinesOf "  \n[Chorus]\n\nHey Jude \r\nnot bad".data
    = ["Hey Jude".data, "not bad".data] := by decide

/-!
## Classified lines and discourse-run merging

All three tree builders start with the same loop: walk the filtered lines; when
a line matches a discourse marker, merge the following consecutive lines that
match that same marker into one discourse entry with the summed count
(`idx` records the index of the run's first line); other lines stay as lyric
entries.
-/

inductive CLine where
  | lyric (text : List Char) (idx : Nat)
  | discourse (marker : List Char) (count : Nat) (idx : Nat)
deriving DecidableEq, Repr

/-- The count contributed by one line of a discourse run:
`isDiscourseMarkerLine(rawLines[j], [dm.marker]).count`. -/
def runCount (m : List Char) (r : List Char) : Nat :=
  match isDiscourseMarkerLine r [m] with
  | some dm => dm.count
  | none => 0

/-- The discourse-grouping loop of the tree builders, with an explicit fuel
parameter so that the recursion is structural (every iteration consumes at
least one line, so any fuel at least the number of lines gives the loop's
behaviour; see `classifyLinesF_irrel` and `classifyLines_cons`).
`i` is the index of the first line of `ls`. -/
def classifyLinesF : Nat → Nat → List (List Char) → List CLine
  | _, _, [] => []
  | 0, _, _ :: _ => []
  | fuel + 1, i, l :: rest =>
    match isDiscourseMarkerLine l DISCOURSE_MARKERS with
    | some dm =>
      let run := rest.takeWhile fun r => (isDiscourseMarkerLine r [dm.marker]).isSome
      CLine.discourse dm.marker (dm.count + (run.map (runCount dm.marker)).sum) i
        :: classifyLinesF fuel (i + 1 + run.length) (rest.drop run.length)
    | none => CLine.lyric l i :: classifyLinesF fuel (i + 1) rest

/-- The discourse-grouping loop of the tree builders. -/
def classifyLines (i : Nat) (ls : List (List Char)) : List CLine :=
  classifyLinesF ls.length i ls

theorem classifyLinesF_nil (f i : Nat) : classifyLinesF f i [] = [] := by
  cases f <;> rfl

/-- The fuel argument of `classifyLinesF` is irrelevant as soon as it covers
the number of lines. -/
theorem classifyLinesF_irrel :
    ∀ (f1 f2 i : Nat) (ls : List (List Char)), ls.length ≤ f1 → ls.length ≤ f2 →
      classifyLinesF f1 i ls = classifyLinesF f2 i ls := by
  intro f1
  induction f1 with
  | zero =>
    intro f2 i ls h1 _
    have hls : ls = [] := List.length_eq_zero.mp (Nat.le_zero.mp h1)
    subst hls
    rw [classifyLinesF_nil, classifyLinesF_nil]
  | succ f ih =>
    intro f2 i ls h1 h2
    cases ls with
    | nil => rw [classifyLinesF_nil, classifyLinesF_nil]
    | cons l rest =>
      cases f2 with
      | zero => simp at h2
      | succ g =>
        simp only [List.length_cons, Nat.add_le_add_iff_right] at h1 h2
        simp only [classifyLinesF]
        cases hdm : isDiscourseMarkerLine l DISCOURSE_MARKERS with
        | some dm =>
          simp only []
          congr 1
          exact ih g _ _ (by simp only [List.length_drop]; omega)
            (by simp only [List.length_drop]; omega)
        | none =>
          simp only []
          congr 1
          exact ih g _ _ h1 h2

/-- The defining step of `classifyLines` on a nonempty line list. -/
theorem classifyLines_cons (i : Nat) (l : List Char) (rest : List (List Char)) :
    classifyLines i (l :: rest) =
      match isDiscourseMarkerLine l DISCOURSE_MARKERS with
      | some dm =>
        let run := rest.takeWhile fun r => (isDiscourseMarkerLine r [dm.marker]).isSome
        CLine.discourse dm.marker (dm.count + (run.map (runCount dm.marker)).sum) i
          :: classifyLines (i + 1 + run.length) (rest.drop run.length)
      | none => CLine.lyric l i :: classifyLines (i + 1) rest := by
  show classifyLinesF (l :: rest).length i (l :: rest) = _
  simp only [List.length_cons, classifyLinesF, classifyLines]
  cases hdm : isDiscourseMarkerLine l DISCOURSE_MARKERS with
  | some dm =>
    simp only []
    congr 1
    exact classifyLinesF_irrel _ _ _ _ (by simp only [List.length_drop]; omega)
      (Nat.le_refl _)
  | none => rfl

example : classifyLines 0 ["na na".data, "NA-NA".data, "la la".data, "Hey Jude".data]
    = [CLine.discourse "na".data 4 0, CLine.discourse "la".data 2 2,
       CLine.lyric "Hey Jude".data 3] := by decide

/-!
## Stem grouping (`groupByStem` of `src/unnamed/part_000`)

One level of grouping: collect, for `stemLen = 3` and then `2`, the indices of
the lyric nodes sharing the same lowercased leading `stemLen` raw words
(`words.slice(0, stemLen).join(" ").toLowerCase()`), keyed in an
insertion-ordered map (JavaScript object with string keys); keep stems matched
by at least `minCount` nodes but fewer than all nodes of the level; on success
emit one parent per kept stem whose children are the suffix remainders
deduplicated by normalized suffix, followed by the unmatched nodes as
standalone leaves.
-/

/-- Split a line into words: `text.trim().split(/\s+/)`.  On a trimmed
nonempty string this yields the maximal whitespace-free chunks; JavaScript
yields `[""]` for the empty string. -/
def splitAtWS : List Char → List Char → List (List Char)
  | acc, [] => [acc.reverse]
  | acc, c :: rest =>
    if jsWhitespace c then acc.reverse :: splitAtWS [] rest
    else splitAtWS (c :: acc) rest

def jsWords (t : List Char) : List (List Char) :=
  let trimmed := jsTrim t
  if trimmed = [] then [[]]
  else (splitAtWS [] trimmed).filter (· ≠ [])

example : jsWords "  don't make it bad ".data
    = ["don't".data, "make".data, "it".data, "bad".data] := by decide

def lowerStr (l : List Char) : List Char := l.map Char.toLower

/-- The stem key a lyric line contributes for a given stem length, when it has
enough words: the first `stemLen` raw words joined by a space, lowercased. -/
def stemOf (stemLen : Nat) (text : List Char) : Option (List Char) :=
  let ws := jsWords text
  if stemLen ≤ ws.length then
    some (lowerStr (List.intercalate [' '] (ws.take stemLen)))
  else none

/-- Append `v` to the entry of key `k` of an insertion-ordered association
map, adding the entry at the end if the key is new — the behaviour of
`if (!map[k]) map[k] = []; map[k].push(v)` on a JavaScript object, read back
with `Object.entries`. -/
def pushEntry {α β : Type} [DecidableEq α] (k : α) (v : β) :
    List (α × List β) → List (α × List β)
  | [] => [(k, [v])]
  | (k2, vs) :: rest =>
    if k2 = k then (k2, vs ++ [v]) :: rest else (k2, vs) :: pushEntry k v rest

/-- `stemGroups`: the map from stem key to the list of node positions (within
`nodes`) of the lyric nodes carrying that stem. -/
def stemGroups (stemLen : Nat) (nodes : List CLine) :
    List (List Char × List Nat) :=
  nodes.enum.foldl
    (fun acc p =>
      match p.2 with
      | CLine.lyric t _ =>
        match stemOf stemLen t with
        | some k => pushEntry k p.1 acc
        | none => acc
      | CLine.discourse _ _ _ => acc)
    []

/-- `validStems`: stems matched by at least `minCount` nodes and not by all
nodes of the level. -/
def validStems (minCount stemLen : Nat) (nodes : List CLine) :
    List (List Char × List Nat) :=
  (stemGroups stemLen nodes).filter fun g =>
    decide (minCount ≤ g.2.length ∧ g.2.length < nodes.length)

/-- The stem length `groupByStem` ends up using: 3, or 2 when no length-3 stem
qualifies. -/
def chosenStemLen (minCount : Nat) (nodes : List CLine) : Nat :=
  if validStems minCount 3 nodes ≠ [] then 3 else 2

/-- The stem groups `groupByStem` ends up keeping (empty when it falls back to
standalone nodes). -/
def chosenStems (minCount : Nat) (nodes : List CLine) :
    List (List Char × List Nat) :=
  validStems minCount (chosenStemLen minCount nodes) nodes

/-!
### Mindmap nodes

JavaScript builds heterogeneous objects with optional fields; `MNode` carries
all fields appearing anywhere in the tree builders (absent field = `none` /
`false`).  `rep` is the `repeat` field of the branching builder; `ctype` and
`marker`/`text`/`idx` appear on copied classified-line objects.
-/

inductive CKind where
  | lyric
  | discourse
deriving DecidableEq, Repr

inductive MNode where
  | mk (label : Option (List Char)) (big : Bool) (count : Option Nat)
       (rep : Option Nat) (text : Option (List Char)) (idx : Option Nat)
       (marker : Option (List Char)) (ctype : Option CKind)
       (children : List MNode)

def MNode.label : MNode → Option (List Char)
  | .mk l _ _ _ _ _ _ _ _ => l

def MNode.children : MNode → List MNode
  | .mk _ _ _ _ _ _ _ _ c => c

def MNode.count : MNode → Option Nat
  | .mk _ _ c _ _ _ _ _ _ => c

def MNode.big : MNode → Bool
  | .mk _ b _ _ _ _ _ _ _ => b

/-- A plain labeled leaf `{ label: l }`. -/
def leafNode (l : List Char) : MNode :=
  .mk (some l) false none none none none none none []

/-- A discourse leaf `{ label: marker, big: true, count }`. -/
def discLeaf (m : List Char) (c : Nat) : MNode :=
  .mk (some m) true (some c) none none none none none []

/-- The copy `{ ...node }` of a classified line, as produced for levels of at
most one node. -/
def cline2node : CLine → MNode
  | .lyric t i => .mk none false none none (some t) (some i) none (some .lyric) []
  | .discourse m c i =>
    .mk none false (some c) none none (some i) (some m) (some .discourse) []

/-- The standalone node a classified line becomes when it is not captured by
any stem (and in the no-valid-stem fallback). -/
def fallbackLeaf : CLine → MNode
  | .lyric t _ => leafNode t
  | .discourse m c _ => discLeaf m c

def getText : CLine → List Char
  | .lyric t _ => t
  | .discourse _ _ _ => []  -- unreachable: only lyric nodes enter stem groups

def getIdx : CLine → Nat
  | .lyric _ i => i
  | .discourse _ _ i => i

/-- The suffix shown for a matched line: the words after the stem, joined by a
space, or the placeholder when empty. -/
def suffixOf (stemLen : Nat) (t : List Char) : List Char :=
  let suffix := List.intercalate [' '] ((jsWords t).drop stemLen)
  if suffix = [] then "(...)".data else suffix

/-- `{ label: suffix, ...node, text: undefined, children: kids }` — the spread
copies the classified line's fields, then `text` is overwritten and the
(recursively grouped) children attached. -/
def suffixChildNode (kids : List MNode) (suffix : List Char) (node : CLine) :
    MNode :=
  match cline2node node with
  | .mk _ big cnt rep _ idx mrk ct _ =>
    .mk (some suffix) big cnt rep none idx mrk ct kids

/-- The deduplicated suffix children of one stem group: walk `idxArr`, skip a
line whose normalized suffix was already seen, keep the first occurrences in
order.  `kidsOf` computes the recursive grouping of the single matched line. -/
def suffixChildren (kidsOf : CLine → List MNode) (stemLen : Nat)
    (nodes : List CLine) (idxArr : List Nat) : List MNode :=
  (idxArr.foldl
    (fun (acc : List (List Char) × List MNode) idx =>
      let node := nodes.getD idx (CLine.lyric [] 0)
      let suffix := suffixOf stemLen (getText node)
      let ns := normalizeLine suffix
      if ns ∈ acc.1 then acc
      else (ns :: acc.1, acc.2 ++ [suffixChildNode (kidsOf node) suffix node]))
    ([], [])).2

/-- The union of the index sets of the kept stems (`usedIdx`). -/
def usedIdxOf (valid : List (List Char × List Nat)) : List Nat :=
  valid.foldl (fun acc g => acc ++ g.2) []

/-- The output of one successful grouping level: one parent per kept stem, in
map order, followed by the unmatched nodes as standalone leaves, in node
order. -/
def levelResult (kidsOf : CLine → List MNode) (stemLen : Nat)
    (nodes : List CLine) (valid : List (List Char × List Nat)) : List MNode :=
  (valid.map fun g =>
    MNode.mk (some g.1) false none none none none none none
      (suffixChildren kidsOf stemLen nodes g.2))
  ++ (nodes.enum.filter fun p => decide (p.1 ∉ usedIdxOf valid)).map
      fun p => fallbackLeaf p.2

/-- `groupByStem` with fuel making the recursion structural; the recursive
call is always on a one-node list, so any positive fuel realizes the
source's recursion (`groupByStemF_single`). -/
def groupByStemF : Nat → List CLine → Nat → List MNode
  | 0, nodes, _ => nodes.map cline2node
  | fuel + 1, nodes, minCount =>
    if nodes.length ≤ 1 then nodes.map cline2node
    else
      let kidsOf := fun node => groupByStemF fuel [node] minCount
      let v3 := validStems minCount 3 nodes
      if v3 ≠ [] then levelResult kidsOf 3 nodes v3
      else
        let v2 := validStems minCount 2 nodes
        if v2 ≠ [] then levelResult kidsOf 2 nodes v2
        else nodes.map fallbackLeaf

/-- `groupByStem` from `src/unnamed/part_000`. -/
def groupByStem (nodes : List CLine) (minCount : Nat) : List MNode :=
  groupByStemF nodes.length nodes minCount

theorem groupByStemF_single (f : Nat) (n : CLine) (mc : Nat) :
    groupByStemF f [n] mc = [cline2node n] := by
  cases f <;> rfl

/-- `buildMindmapTree` from `src/unnamed/part_000`: root label is the first
lyric line (or "Song"), children are the stem grouping of *all* classified
lines. -/
def rootTitle (lines : List CLine) : List Char :=
  match lines.find? (fun l => match l with
    | CLine.lyric _ _ => true
    | CLine.discourse _ _ _ => false) with
  | some (CLine.lyric t _) => t
  | _ => "Song".data

def buildMindmapTree (lyrics : List Char) : MNode :=
  let rawLines := rawLinesOf lyrics
  if rawLines = [] then
    MNode.mk (some "Song".data) false none none none none none none []
  else
    let lines := classifyLines 0 rawLines
    MNode.mk (some (rootTitle lines)) false none none none none none none
      (groupByStem lines 2)

-- the Hey Jude scenario of the specification: no length-3 or length-2 stem is
-- shared by two lines, so the builder emits only standalone nodes — including
-- one repeating the root line
example : buildMindmapTree
      "na na na na\nHey Jude\ndon't make it bad\ndon't be afraid".data
    = MNode.mk (some "Hey Jude".data) false none none none none none none
        [discLeaf "na".data 4, leafNode "Hey Jude".data,
         leafNode "don't make it bad".data,
         leafNode "don't be afraid".data] := by rfl

example : buildMindmapTree "a b\nc d".data
    = MNode.mk (some "a b".data) false none none none none none none
        [leafNode "a b".data, leafNode "c d".data] := by rfl

/-!
## Repeated-block finder (`findRepeatedBlocks` of `src/mindmap.js`)

For each block length 2..6 and each window start, the normalized window joined
by `"\n"` is a key of an insertion-ordered map collecting start positions.
Every key with two or more occurrences is a candidate; its occurrences are
processed in order and accepted whenever their span does not overlap an
already-accepted block's span; each accepted block carries the key's total
occurrence count.  The result is sorted by start position (stably).
-/

/-- `String.prototype.split("\n")`. -/
def splitNlAux : List Char → List Char → List (List Char)
  | acc, [] => [acc.reverse]
  | acc, '\n' :: rest => acc.reverse :: splitNlAux [] rest
  | acc, c :: rest => splitNlAux (c :: acc) rest

def splitNl (l : List Char) : List (List Char) := splitNlAux [] l

/-- An accepted repeated block.  `stop` is the `end` field of the source. -/
structure Block where
  start : Nat
  stop : Nat
  length : Nat
  textArr : List (List Char)
  count : Nat
deriving DecidableEq, Repr

/-- `lines.slice(i, i + blockLen).map(normalizeLine).join("\n")`. -/
def windowKey (lines : List (List Char)) (i blockLen : Nat) : List Char :=
  List.intercalate ['\n'] (((lines.drop i).take blockLen).map normalizeLine)

/-- The key-to-start-positions map, filled for block lengths
`max(minBlockLen, 2)` to `6` and window starts `0` to `lines.length - blockLen`
(no windows when the length exceeds the line count). -/
def blockMapOf (minBlockLen : Nat) (lines : List (List Char)) :
    List (List Char × List Nat) :=
  (List.range' (max minBlockLen 2) (7 - max minBlockLen 2)).foldl
    (fun acc blockLen =>
      (List.range (lines.length + 1 - blockLen)).foldl
        (fun acc2 i => pushEntry (windowKey lines i blockLen) i acc2) acc)
    []

/-- Process the occurrences of one repeated key in ascending order, accepting
each occurrence whose span overlaps no already-accepted block
(`(idx >= b.start && idx < b.end) || (b.start >= idx && b.start < idx + len)`
with `len = block.split("\n").length`). -/
def acceptOccs (blocks : List Block) (key : List Char) (indices : List Nat) :
    List Block :=
  indices.foldl
    (fun bs idx =>
      let parts := splitNl key
      let len := parts.length
      let overlaps := bs.any fun b =>
        (decide (b.start ≤ idx) && decide (idx < b.stop)) ||
        (decide (idx ≤ b.start) && decide (b.start < idx + len))
      if overlaps then bs
      else bs ++ [⟨idx, idx + len, len, parts, indices.length⟩])
    blocks

/-- Stable insertion: `x` goes after every already-placed element `y` with
`le y x`.  Together with the left-to-right fold of `stableSortBy` this is a
stable sort, the behaviour of `Array.prototype.sort` with a consistent
comparator. -/
def insertByLe {α : Type} (le : α → α → Bool) (x : α) : List α → List α
  | [] => [x]
  | y :: ys => if le y x then y :: insertByLe le x ys else x :: y :: ys

def stableSortBy {α : Type} (le : α → α → Bool) (l : List α) : List α :=
  l.foldl (fun acc x => insertByLe le x acc) []

/-- `findRepeatedBlocks` from `src/mindmap.js`. -/
def findRepeatedBlocks (lines : List (List Char)) (minBlockLen : Nat) :
    List Block :=
  let blocks := (blockMapOf minBlockLen lines).foldl
    (fun bs e => if 1 < e.2.length then acceptOccs bs e.1 e.2 else bs) []
  stableSortBy (fun a b => decide (a.start ≤ b.start)) blocks

-- both non-overlapping occurrences of the repeated pair are accepted as
-- separate blocks, each carrying the total occurrence count
example : findRepeatedBlocks
      ["hello there friend".data, "goodbye cruel world".data,
       "hello there friend".data, "goodbye cruel world".data] 2
    = [⟨0, 2, 2, ["hello there friend".data, "goodbye cruel world".data], 2⟩,
       ⟨2, 4, 2, ["hello there friend".data, "goodbye cruel world".data], 2⟩]
    := by decide

/-!
## Branching tree builder (`buildBranchingMindmapTree` of `src/mindmap.js`)

Quirks of the source faithfully modelled:
* blocks are recorded in `blockFirstOccurrence` under the key `block.block`,
  a field that does not exist, so every block shares the single key
  `"undefined"`; moreover the guard `if (!blockFirstOccurrence[block.block])`
  also fires when the stored value is the number `0` (falsy), so the slot
  ends up holding the start of the *last* block whose recorded start was
  reached while the slot held `undefined` or `0`;
* `blockStarts` is built but never read, and is not modelled.
-/

/-- The single `blockFirstOccurrence` slot (key `"undefined"`): each block
overwrites it when it currently holds nothing or the (falsy) number 0. -/
def blockFirstOcc (blocks : List Block) : Option Nat :=
  blocks.foldl
    (fun acc b => if acc = none ∨ acc = some 0 then some b.start else acc)
    none

/-- `lines.map(l => l.type === "lyric" ? l.text : "")`. -/
def lyricTextsOf (lines : List CLine) : List (List Char) :=
  lines.map fun l =>
    match l with
    | CLine.lyric t _ => t
    | CLine.discourse _ _ _ => []

/-- A stem candidate of the branching builder: key, matched line indices, and
the stem's word count. -/
structure StemEntry where
  stem : List Char
  idxArr : List Nat
  words : Nat
deriving DecidableEq, Repr

/-- `stems.find(s => s.stem === stem)` then push / create. -/
def pushStem (stem : List Char) (idx w : Nat) : List StemEntry → List StemEntry
  | [] => [⟨stem, [idx], w⟩]
  | e :: rest =>
    if e.stem = stem then ⟨e.stem, e.idxArr ++ [idx], e.words⟩ :: rest
    else e :: pushStem stem idx w rest

/-- Per line, the first length in `3, 2` that fits contributes a stem (the
`for (let w = 3; w >= 2; w--) ... break` loop). -/
def branchStems (lyricLines : List (List Char)) : List StemEntry :=
  lyricLines.enum.foldl
    (fun acc p =>
      let ws := jsWords p.2
      if 3 ≤ ws.length then
        pushStem (lowerStr (List.intercalate [' '] (ws.take 3))) p.1 3 acc
      else if 2 ≤ ws.length then
        pushStem (lowerStr (List.intercalate [' '] (ws.take 2))) p.1 2 acc
      else acc)
    []

/-- Keep stems with at least 2 matches, longer stems first (stable sort with
comparator `b.words - a.words`). -/
def stemGroupsB (lyricLines : List (List Char)) : List StemEntry :=
  stableSortBy (fun a b => decide (b.words ≤ a.words))
    ((branchStems lyricLines).filter fun s => decide (2 ≤ s.idxArr.length))

/-- The result shape `{ main, branches }` of the branching builder. -/
structure BTree where
  main : List Char
  branches : List MNode

/-- One iteration of the main loop of `buildBranchingMindmapTree`, over the
state (usedIdx, branches). -/
def branchStep (lines : List CLine) (repeatedBlocks : List Block)
    (bfo : Option Nat) (sg : List StemEntry)
    (st : List Nat × List MNode) (i : Nat) : List Nat × List MNode :=
  if i ∈ st.1 then st
  else
    match lines.getD i (CLine.lyric [] 0) with
    | CLine.discourse m c _ => (i :: st.1, st.2 ++ [discLeaf m c])
    | CLine.lyric t _ =>
      match repeatedBlocks.find?
          (fun b => decide (b.start = i) && decide (bfo = some i)) with
      | some blk =>
        ((List.range' i blk.length).foldl (fun u j => j :: u) st.1,
         st.2 ++ [MNode.mk none false none (some blk.count) none none none none
                    (blk.textArr.map leafNode)])
      | none =>
        if repeatedBlocks.any (fun b =>
            decide (b.start ≠ i) && decide (b.start ≤ i) &&
            decide (i < b.stop) && decide (bfo ≠ some i)) then
          (i :: st.1, st.2)
        else
          match sg.find? (fun s =>
              decide (i ∈ s.idxArr) &&
              decide (2 ≤ (s.idxArr.filter fun idx => decide (idx ∉ st.1)).length) &&
              decide (s.idxArr.head? = some i)) with
          | some s =>
            let childNodes := ((s.idxArr.filter fun idx => decide (idx ∉ st.1)).foldl
              (fun (acc : List (List Char) × List MNode) idx =>
                let line := match lines.getD idx (CLine.lyric [] 0) with
                  | CLine.lyric t2 _ => t2
                  | CLine.discourse _ _ _ => []
                let suffix0 := List.intercalate [' '] ((jsWords line).drop s.words)
                let suffix := if suffix0 = [] then "(...)".data else suffix0
                let ns := normalizeLine suffix
                if ns ∈ acc.1 then acc
                else (ns :: acc.1, acc.2 ++ [leafNode suffix]))
              ([], [])).2
            -- `if (childNodes.length > 0)`
            if childNodes.isEmpty then (i :: st.1, st.2 ++ [leafNode t])
            else
              (s.idxArr.foldl (fun u idx => idx :: u) st.1,
               st.2 ++ [MNode.mk (some s.stem) false none none none none none none
                          childNodes])
          | none => (i :: st.1, st.2 ++ [leafNode t])

/-- `buildBranchingMindmapTree` from `src/mindmap.js`. -/
def buildBranchingMindmapTree (lyrics : List Char) : BTree :=
  let rawLines := rawLinesOf lyrics
  if rawLines = [] then ⟨"Song".data, []⟩
  else
    let lines := classifyLines 0 rawLines
    let title := match lines.head? with
      | some (CLine.lyric t _) => t
      | _ => "Song".data
    let lyricLines := lyricTextsOf lines
    let repeatedBlocks := findRepeatedBlocks lyricLines 2
    let bfo := blockFirstOcc repeatedBlocks
    let sg := stemGroupsB lyricLines
    ⟨title,
     ((List.range lines.length).foldl
        (branchStep lines repeatedBlocks bfo sg) ([], [])).2⟩

/-!
## Helper lemmas
-/

/-- `takeWhile` takes exactly a prefix of known all-true elements followed by
a failing (or absent) head. -/
theorem takeWhile_append_pred {α : Type} (p : α → Bool) (xs ys : List α)
    (h1 : ∀ x ∈ xs, p x = true) (h2 : ∀ y, ys.head? = some y → p y = false) :
    (xs ++ ys).takeWhile p = xs := by
  induction xs with
  | nil =>
    cases ys with
    | nil => rfl
    | cons y ys2 => simp [List.takeWhile_cons, h2 y rfl]
  | cons x xs2 ih =>
    have hx := h1 x (List.mem_cons_self x xs2)
    have ih2 := ih fun x2 hx2 => h1 x2 (List.mem_cons_of_mem x hx2)
    simp [List.takeWhile_cons, hx, ih2]

/-!
## Claim C8 — empty / contentless input
-/

/-- C8: an input whose lines are all blank or bracket tags (after trimming)
produces the fixed tree `{label: "Song", children: []}`; the whole pipeline is
total, so no error can be raised. -/
theorem C8_empty_input_yields_song_tree (lyrics : List Char)
    (h : ∀ l ∈ (splitLines lyrics).map jsTrim, l = [] ∨ isBracketTag l = true) :
    buildMindmapTree lyrics
      = MNode.mk (some "Song".data) false none none none none none none [] := by
  have hraw : rawLinesOf lyrics = [] := by
    apply List.filter_eq_nil_iff.mpr
    intro a ha
    rcases h a ha with h1 | h1 <;> simp [h1]
  simp [buildMindmapTree, hraw]

theorem C8_witness :
    buildMindmapTree "[Verse 1]\n\n   \n[Chorus]".data
      = MNode.mk (some "Song".data) false none none none none none none [] :=
  C8_empty_input_yields_song_tree _ (by decide)

/-!
## Claim C3 — the Hey Jude scenario
-/

def heyJudeInput : List Char :=
  "na na na na\nHey Jude\ndon't make it bad\ndon't be afraid".data

/-- C3 counterexample: on the scenario input the root's children are exactly
four childless nodes — a `na × 4` discourse node, a copy of the root line, and
the two `don't` lines as standalone leaves.  No node labeled `"don't"` exists
anywhere in the tree, contradicting the claimed stem-grouped node
`{label: "don't", children: [{label: "make it bad"}, {label: "be afraid"}]}`
(stems have length 3 or 2 words, never 1, and the two `don't` lines share no
3- or 2-word stem). -/
theorem C3_counterexample :
    ((buildMindmapTree heyJudeInput).children.map fun c =>
        (c.label, c.children.length))
      = [(some "na".data, 0), (some "Hey Jude".data, 0),
         (some "don't make it bad".data, 0),
         (some "don't be afraid".data, 0)] := rfl

/-- C3 amended: the scenario input yields root label "Hey Jude" and the
discourse node `{label: "na", big, count: 4}` at its position, but no
stem-grouped `"don't"` node: the two `don't` lines remain standalone leaves
(they share no stem of length 3 or 2 words), and the root line also reappears
as a leaf among the children. -/
theorem C3_amended :
    buildMindmapTree heyJudeInput
      = MNode.mk (some "Hey Jude".data) false none none none none none none
          [discLeaf "na".data 4, leafNode "Hey Jude".data,
           leafNode "don't make it bad".data,
           leafNode "don't be afraid".data] := rfl

/-!
## Claim C6 — discourse-run merging
-/

/-- C6: when a line matches a discourse marker `dm`, the following consecutive
lines matching that same marker (`run`) are merged into a single classified
discourse line whose count is `dm.count` plus the sum of the runs' individual
counts; merging stops exactly at the first following line that does not match
that marker (the head of `rest2`), and processing resumes there — in
particular a next line matching a different marker will start a new discourse
node on the recursive call. -/
theorem C6_discourse_run_merging (i : Nat) (l : List Char)
    (run rest2 : List (List Char)) (dm : DM)
    (hdm : isDiscourseMarkerLine l DISCOURSE_MARKERS = some dm)
    (hrun : ∀ r ∈ run, (isDiscourseMarkerLine r [dm.marker]).isSome = true)
    (hstop : ∀ r, rest2.head? = some r → isDiscourseMarkerLine r [dm.marker] = none) :
    classifyLines i (l :: (run ++ rest2))
      = CLine.discourse dm.marker (dm.count + (run.map (runCount dm.marker)).sum) i
          :: classifyLines (i + 1 + run.length) rest2 := by
  rw [classifyLines_cons, hdm]
  have htake : (run ++ rest2).takeWhile
      (fun r => (isDiscourseMarkerLine r [dm.marker]).isSome) = run := by
    apply takeWhile_append_pred
    · exact hrun
    · intro y hy
      simp [hstop y hy]
  simp only [htake, List.drop_left]

theorem C6_witness :
    classifyLines 0 ["na na".data, "na-na".data, "oh oh".data, "hello you".data]
      = CLine.discourse "na".data 4 0
          :: classifyLines 2 ["oh oh".data, "hello you".data] :=
  C6_discourse_run_merging 0 "na na".data ["na-na".data]
    ["oh oh".data, "hello you".data] ⟨"na".data, 2⟩ (by decide) (by decide)
    (by decide)

/-!
## Claim C5 — stem selection bounds
-/

/-- C5: every stem group the grouper of `part_000` selects comes from stem
length 3, or length 2 when no length-3 stem qualifies, is matched by at least
2 nodes, and is matched by strictly fewer nodes than the level holds — a stem
matching 100% of the nodes at its level is never selected. -/
theorem C5_stem_selection_bounds (nodes : List CLine) (g : List Char × List Nat)
    (hg : g ∈ chosenStems 2 nodes) :
    (2 ≤ g.2.length ∧ g.2.length < nodes.length) ∧
      (g ∈ validStems 2 3 nodes ∨
        (validStems 2 3 nodes = [] ∧ g ∈ validStems 2 2 nodes)) := by
  constructor
  · have h2 := (List.mem_filter.mp hg).2
    exact of_decide_eq_true h2
  · unfold chosenStems chosenStemLen at hg
    by_cases h3 : validStems 2 3 nodes = []
    · right
      refine ⟨h3, ?_⟩
      simpa [h3] using hg
    · left
      simpa [h3] using hg

def c5Nodes : List CLine :=
  [CLine.lyric "a b c".data 0, CLine.lyric "a b d".data 1,
   CLine.lyric "quite different".data 2]

theorem C5_witness :
    (2 ≤ [0, 1].length ∧ [0, 1].length < c5Nodes.length) ∧
      (("a b".data, [0, 1]) ∈ validStems 2 3 c5Nodes ∨
        (validStems 2 3 c5Nodes = [] ∧
          ("a b".data, [0, 1]) ∈ validStems 2 2 c5Nodes)) :=
  C5_stem_selection_bounds c5Nodes ("a b".data, [0, 1]) (by decide)

/-!
## Invariants of the stem map
-/

/-- The stem key contributed by the node at position `i` (if it is a lyric
node with enough words). -/
def stemKeyAt (stemLen : Nat) (nodes : List CLine) (i : Nat) :
    Option (List Char) :=
  match nodes.getD i (CLine.lyric [] 0) with
  | CLine.lyric t _ => stemOf stemLen t
  | CLine.discourse _ _ _ => none

theorem pushEntry_mem {α β : Type} [DecidableEq α] {k : α} {v : β}
    {m : List (α × List β)} {g : α × List β} (hg : g ∈ pushEntry k v m) :
    g ∈ m ∨ (∃ vs, (k, vs) ∈ m ∧ g = (k, vs ++ [v])) ∨ g = (k, [v]) := by
  induction m with
  | nil =>
    simp only [pushEntry, List.mem_singleton] at hg
    right; right; exact hg
  | cons e rest ih =>
    obtain ⟨k2, vs⟩ := e
    by_cases hk : k2 = k
    · subst hk
      simp only [pushEntry, if_pos rfl] at hg
      rcases List.mem_cons.mp hg with h1 | h1
      · right; left; exact ⟨vs, List.mem_cons_self _ _, h1⟩
      · left; exact List.mem_cons_of_mem _ h1
    · simp only [pushEntry, if_neg hk] at hg
      rcases List.mem_cons.mp hg with h1 | h1
      · left; rw [h1]; exact List.mem_cons_self _ _
      · rcases ih h1 with h2 | ⟨vs2, hv2, he⟩ | h2
        · left; exact List.mem_cons_of_mem _ h2
        · right; left; exact ⟨vs2, List.mem_cons_of_mem _ hv2, he⟩
        · right; right; exact h2

theorem pushEntry_keys {α β : Type} [DecidableEq α] (k : α) (v : β)
    (m : List (α × List β)) :
    (pushEntry k v m).map Prod.fst =
      if k ∈ m.map Prod.fst then m.map Prod.fst
      else m.map Prod.fst ++ [k] := by
  induction m with
  | nil => simp [pushEntry]
  | cons e rest ih =>
    obtain ⟨k2, vs⟩ := e
    by_cases hk : k2 = k
    · subst hk
      simp [pushEntry]
    · simp only [pushEntry, if_neg hk, List.map_cons, ih]
      by_cases h2 : k ∈ rest.map Prod.fst
      · simp [h2, hk, Ne.symm hk]
      · simp [h2, hk, Ne.symm hk]

theorem pushEntry_keys_nodup {α β : Type} [DecidableEq α] {k : α} {v : β}
    {m : List (α × List β)} (h : (m.map Prod.fst).Nodup) :
    ((pushEntry k v m).map Prod.fst).Nodup := by
  rw [pushEntry_keys]
  by_cases hk : k ∈ m.map Prod.fst
  · simpa [hk] using h
  · simp only [hk, if_false]
    simp [List.nodup_append, h, hk]

/-- The step of the `stemGroups` fold. -/
def sgStep (stemLen : Nat) (acc : List (List Char × List Nat))
    (p : Nat × CLine) : List (List Char × List Nat) :=
  match p.2 with
  | CLine.lyric t _ =>
    match stemOf stemLen t with
    | some k => pushEntry k p.1 acc
    | none => acc
  | CLine.discourse _ _ _ => acc

theorem stemGroups_eq_fold (stemLen : Nat) (nodes : List CLine) :
    stemGroups stemLen nodes = nodes.enum.foldl (sgStep stemLen) [] := rfl

/-- Invariant carried through the `stemGroups` fold: keys are distinct, every
entry is nonempty and duplicate-free, and every recorded position is a
below-bound position whose node contributes exactly that entry's key. -/
def SGInv (stemLen : Nat) (nodes : List CLine) (bound : Nat)
    (acc : List (List Char × List Nat)) : Prop :=
  (acc.map Prod.fst).Nodup ∧
  ∀ g ∈ acc, g.2 ≠ [] ∧ g.2.Nodup ∧
    ∀ i ∈ g.2, i < bound ∧ i < nodes.length ∧
      stemKeyAt stemLen nodes i = some g.1

theorem SGInv_mono {stemLen : Nat} {nodes : List CLine} {b1 b2 : Nat}
    {acc : List (List Char × List Nat)} (h : SGInv stemLen nodes b1 acc)
    (hb : b1 ≤ b2) : SGInv stemLen nodes b2 acc := by
  refine ⟨h.1, fun g hg => ?_⟩
  obtain ⟨hne, hnd, hall⟩ := h.2 g hg
  exact ⟨hne, hnd, fun i hi =>
    ⟨Nat.lt_of_lt_of_le (hall i hi).1 hb, (hall i hi).2.1, (hall i hi).2.2⟩⟩

theorem sgStep_inv {stemLen : Nat} {nodes : List CLine} {n : Nat}
    {acc : List (List Char × List Nat)} {x : CLine}
    (hinv : SGInv stemLen nodes n acc) (hn : n < nodes.length)
    (hx : nodes.getD n (CLine.lyric [] 0) = x) :
    SGInv stemLen nodes (n + 1) (sgStep stemLen acc (n, x)) := by
  unfold sgStep
  cases x with
  | discourse m c j => exact SGInv_mono hinv (Nat.le_succ n)
  | lyric t j =>
    simp only []
    cases hk : stemOf stemLen t with
    | none => exact SGInv_mono hinv (Nat.le_succ n)
    | some k =>
      have hkey : stemKeyAt stemLen nodes n = some k := by
        unfold stemKeyAt
        rw [hx]
        exact hk
      constructor
      · exact pushEntry_keys_nodup hinv.1
      · intro g hg
        rcases pushEntry_mem hg with h1 | ⟨vs, hvs, he⟩ | h1
        · obtain ⟨hne, hnd, hall⟩ := hinv.2 g h1
          exact ⟨hne, hnd, fun i hi =>
            ⟨Nat.lt_succ_of_lt (hall i hi).1, (hall i hi).2.1, (hall i hi).2.2⟩⟩
        · obtain ⟨hne, hnd, hall⟩ := hinv.2 (k, vs) hvs
          subst he
          refine ⟨by simp, ?_, ?_⟩
          · -- vs ++ [n] has no duplicates: vs has none and n exceeds them all
            rw [List.nodup_append]
            refine ⟨hnd, List.nodup_singleton n, ?_⟩
            intro a ha hb
            rw [List.mem_singleton] at hb
            rw [hb] at ha
            exact absurd (hall n ha).1 (Nat.lt_irrefl n)
          · intro i hi
            rcases List.mem_append.mp hi with h2 | h2
            · exact ⟨Nat.lt_succ_of_lt (hall i h2).1, (hall i h2).2.1,
                (hall i h2).2.2⟩
            · rw [List.mem_singleton] at h2
              rw [h2]
              exact ⟨Nat.lt_succ_self n, hn, hkey⟩
        · subst h1
          refine ⟨by simp, List.nodup_singleton n, ?_⟩
          intro i hi
          rw [List.mem_singleton] at hi
          rw [hi]
          exact ⟨Nat.lt_succ_self n, hn, hkey⟩

theorem sg_fold_inv (stemLen : Nat) (nodes : List CLine) :
    ∀ (xs : List CLine) (n : Nat) (acc : List (List Char × List Nat)),
      n + xs.length ≤ nodes.length →
      (∀ j, j < xs.length →
        nodes.getD (n + j) (CLine.lyric [] 0) = xs.getD j (CLine.lyric [] 0)) →
      SGInv stemLen nodes n acc →
      SGInv stemLen nodes (n + xs.length)
        (List.foldl (sgStep stemLen) acc (List.enumFrom n xs)) := by
  intro xs
  induction xs with
  | nil =>
    intro n acc _ _ hinv
    simpa using hinv
  | cons x xs2 ih =>
    intro n acc hlen hconn hinv
    have hx : nodes.getD n (CLine.lyric [] 0) = x := by
      have := hconn 0 (by simp)
      simpa using this
    have hn : n < nodes.length := by
      simp only [List.length_cons] at hlen
      omega
    have hstep := sgStep_inv hinv hn hx
    have hconn2 : ∀ j, j < xs2.length →
        nodes.getD (n + 1 + j) (CLine.lyric [] 0) = xs2.getD j (CLine.lyric [] 0) := by
      intro j hj
      have := hconn (j + 1) (by simp; omega)
      have harith : n + (j + 1) = n + 1 + j := by omega
      rw [harith] at this
      simpa using this
    have := ih (n + 1) (sgStep stemLen acc (n, x))
      (by simp only [List.length_cons] at hlen; omega) hconn2 hstep
    have harith2 : n + 1 + xs2.length = n + (x :: xs2).length := by
      simp only [List.length_cons]; omega
    rw [harith2] at this
    simpa using this

/-- The invariant specialized to the whole map: distinct keys; nonempty,
duplicate-free index lists; every index a valid lyric position carrying the
entry's key. -/
theorem stemGroups_inv (stemLen : Nat) (nodes : List CLine) :
    ((stemGroups stemLen nodes).map Prod.fst).Nodup ∧
    ∀ g ∈ stemGroups stemLen nodes, g.2 ≠ [] ∧ g.2.Nodup ∧
      ∀ i ∈ g.2, i < nodes.length ∧ stemKeyAt stemLen nodes i = some g.1 := by
  have h := sg_fold_inv stemLen nodes nodes 0 [] (by omega)
    (by intro j hj; simp) ⟨List.nodup_nil, by simp⟩
  rw [stemGroups_eq_fold]
  have henum : List.enumFrom 0 nodes = nodes.enum := rfl
  rw [henum] at h
  exact ⟨h.1, fun g hg => by
    obtain ⟨hne, hnd, hall⟩ := h.2 g hg
    exact ⟨hne, hnd, fun i hi => ⟨(hall i hi).2.1, (hall i hi).2.2⟩⟩⟩

/-!
## Claim C9 — strict-subset check versus discourse nodes
-/

def CLine.isDisc : CLine → Bool
  | CLine.lyric _ _ => false
  | CLine.discourse _ _ _ => true

theorem stemKey_lyric {stemLen : Nat} {nodes : List CLine} {i : Nat}
    {k : List Char} (h : stemKeyAt stemLen nodes i = some k) :
    (nodes.getD i (CLine.lyric [] 0)).isDisc = false := by
  unfold stemKeyAt at h
  rcases hnode : nodes.getD i (CLine.lyric [] 0) with ⟨t, j⟩ | ⟨m, c, j⟩
  · rfl
  · rw [hnode] at h
    simp at h

/-- C9: the strict-subset filter of the stem grouper compares a stem's match
count against the number of *all* nodes of the level, while only lyric nodes
can match; hence at a level containing a discourse node, any stem group with
at least 2 matches passes the filter — in particular one matched by every
lyric node of the level. -/
theorem C9_discourse_level_accepts_full_lyric_stem (stemLen : Nat)
    (nodes : List CLine) (g : List Char × List Nat)
    (hg : g ∈ stemGroups stemLen nodes) (hc : 2 ≤ g.2.length)
    (hd : ∃ d ∈ nodes, d.isDisc = true) :
    g ∈ validStems 2 stemLen nodes := by
  unfold validStems
  refine List.mem_filter.mpr ⟨hg, ?_⟩
  apply decide_eq_true
  refine ⟨hc, ?_⟩
  obtain ⟨hkeys, hprops⟩ := stemGroups_inv stemLen nodes
  obtain ⟨hne, hnd, hall⟩ := hprops g hg
  have hsub : ∀ i ∈ g.2, i ∈ (List.range nodes.length).filter
      (fun j => !(nodes.getD j (CLine.lyric [] 0)).isDisc) := by
    intro i hi
    apply List.mem_filter.mpr
    refine ⟨List.mem_range.mpr (hall i hi).1, ?_⟩
    have := stemKey_lyric (hall i hi).2
    simpa using this
  have h1 : g.2.length = g.2.toFinset.card :=
    (List.toFinset_card_of_nodup hnd).symm
  have h2 : g.2.toFinset ⊆ ((List.range nodes.length).filter
      (fun j => !(nodes.getD j (CLine.lyric [] 0)).isDisc)).toFinset := by
    intro a ha
    exact List.mem_toFinset.mpr (hsub a (List.mem_toFinset.mp ha))
  have h4 : ((List.range nodes.length).filter
      (fun j => !(nodes.getD j (CLine.lyric [] 0)).isDisc)).length
      < (List.range nodes.length).length := by
    obtain ⟨d, hdm, hdisc⟩ := hd
    obtain ⟨j, hj, hje⟩ := List.mem_iff_getElem.mp hdm
    apply List.length_filter_lt_length_iff_exists.mpr
    refine ⟨j, List.mem_range.mpr hj, ?_⟩
    rw [List.getD_eq_getElem _ _ hj, hje]
    simp [hdisc]
  rw [List.length_range] at h4
  calc g.2.length = g.2.toFinset.card := h1
    _ ≤ _ := Finset.card_le_card h2
    _ ≤ _ := List.toFinset_card_le _
    _ < nodes.length := h4

def c9Nodes : List CLine :=
  [CLine.discourse "na".data 2 0, CLine.lyric "a b x".data 1,
   CLine.lyric "a b y".data 2]

theorem C9_witness : ("a b".data, [1, 2]) ∈ validStems 2 2 c9Nodes :=
  C9_discourse_level_accepts_full_lyric_stem 2 c9Nodes ("a b".data, [1, 2])
    (by decide) (by decide) (by decide)

/-!
## Claim C10 — raw lowercased stem keys, raw suffix labels
-/

theorem toLower_idem (c : Char) : c.toLower.toLower = c.toLower := by
  unfold Char.toLower
  by_cases h : c.toNat ≥ 65 ∧ c.toNat ≤ 90
  · rw [if_pos h]
    have hv : (c.toNat + 32).isValidChar := Or.inl (by omega)
    have ht : (Char.ofNat (c.toNat + 32)).toNat = c.toNat + 32 := by
      unfold Char.ofNat
      rw [dif_pos hv]
      rfl
    rw [ht, if_neg (by omega)]
  · rw [if_neg h, if_neg h]

theorem lowerStr_idem (l : List Char) : lowerStr (lowerStr l) = lowerStr l := by
  unfold lowerStr
  rw [List.map_map]
  simp [Function.comp_def, toLower_idem]

theorem stemOf_eq_some {stemLen : Nat} {t k : List Char}
    (h : stemOf stemLen t = some k) :
    k = lowerStr (List.intercalate [' '] ((jsWords t).take stemLen)) := by
  unfold stemOf at h
  by_cases hc : stemLen ≤ (jsWords t).length
  · simp only [hc, if_true] at h
    exact (Option.some.inj h).symm
  · simp only [hc, if_false] at h
    exact absurd h (by simp)

/-- The fold step of `suffixChildren`. -/
def scStep (kidsOf : CLine → List MNode) (stemLen : Nat) (nodes : List CLine)
    (acc : List (List Char) × List MNode) (idx : Nat) :
    List (List Char) × List MNode :=
  let node := nodes.getD idx (CLine.lyric [] 0)
  let suffix := suffixOf stemLen (getText node)
  let ns := normalizeLine suffix
  if ns ∈ acc.1 then acc
  else (ns :: acc.1, acc.2 ++ [suffixChildNode (kidsOf node) suffix node])

theorem suffixChildren_eq_fold (kidsOf : CLine → List MNode) (stemLen : Nat)
    (nodes : List CLine) (idxArr : List Nat) :
    suffixChildren kidsOf stemLen nodes idxArr
      = (idxArr.foldl (scStep kidsOf stemLen nodes) ([], [])).2 := rfl

theorem suffixChildNode_label (kids : List MNode) (s : List Char)
    (node : CLine) : (suffixChildNode kids s node).label = some s := by
  cases node <;> rfl

theorem sc_fold_inv (kidsOf : CLine → List MNode) (stemLen : Nat)
    (nodes : List CLine) (P : MNode → Prop) :
    ∀ (idxArr : List Nat),
      (∀ i ∈ idxArr,
        P (suffixChildNode (kidsOf (nodes.getD i (CLine.lyric [] 0)))
            (suffixOf stemLen (getText (nodes.getD i (CLine.lyric [] 0))))
            (nodes.getD i (CLine.lyric [] 0)))) →
      ∀ acc, (∀ c ∈ acc.2, P c) →
        ∀ c ∈ (idxArr.foldl (scStep kidsOf stemLen nodes) acc).2, P c := by
  intro idxArr
  induction idxArr with
  | nil =>
    intro _ acc hacc c hc
    exact hacc c hc
  | cons i rest ih =>
    intro hstep acc hacc c hc
    rw [List.foldl_cons] at hc
    refine ih (fun i2 hi2 => hstep i2 (List.mem_cons_of_mem i hi2))
      (scStep kidsOf stemLen nodes acc i) ?_ c hc
    intro c2 hc2
    unfold scStep at hc2
    by_cases hseen : normalizeLine (suffixOf stemLen
        (getText (nodes.getD i (CLine.lyric [] 0)))) ∈ acc.1
    · simp only [hseen, if_true] at hc2
      exact hacc c2 hc2
    · simp only [hseen, if_false] at hc2
      rcases List.mem_append.mp hc2 with h1 | h1
      · exact hacc c2 h1
      · rw [List.mem_singleton] at h1
        rw [h1]
        exact hstep i (List.mem_cons_self i rest)

theorem suffixChildren_labels (kidsOf : CLine → List MNode) (stemLen : Nat)
    (nodes : List CLine) (idxArr : List Nat) :
    ∀ c ∈ suffixChildren kidsOf stemLen nodes idxArr,
      ∃ i ∈ idxArr, c.label = some (suffixOf stemLen
        (getText (nodes.getD i (CLine.lyric [] 0)))) := by
  intro c hc
  rw [suffixChildren_eq_fold] at hc
  refine sc_fold_inv kidsOf stemLen nodes
    (fun c2 => ∃ i ∈ idxArr, c2.label = some (suffixOf stemLen
      (getText (nodes.getD i (CLine.lyric [] 0))))) idxArr ?_ ([], [])
    (by intro c2 hc2; exact absurd hc2 (List.not_mem_nil c2)) c hc
  intro i hi
  exact ⟨i, hi, suffixChildNode_label _ _ _⟩

/-- C10: stem keys (and hence stem-parent labels) are the lowercased *raw*
leading words of their lines — punctuation preserved, not normalized — so a
key is invariant under lowercasing and all lines of one group share the same
raw lowercased prefix; suffix children keep the raw (original-case) suffix of
their line as label. -/
theorem C10_raw_lowercase_stems (stemLen : Nat) (nodes : List CLine)
    (g : List Char × List Nat) (hg : g ∈ stemGroups stemLen nodes) :
    lowerStr g.1 = g.1 ∧
    (∀ i ∈ g.2, stemKeyAt stemLen nodes i = some g.1) ∧
    ∀ (kidsOf : CLine → List MNode) (idxArr : List Nat),
      ∀ c ∈ suffixChildren kidsOf stemLen nodes idxArr,
        ∃ i ∈ idxArr, c.label = some (suffixOf stemLen
          (getText (nodes.getD i (CLine.lyric [] 0)))) := by
  obtain ⟨hkeys, hprops⟩ := stemGroups_inv stemLen nodes
  obtain ⟨hne, hnd, hall⟩ := hprops g hg
  refine ⟨?_, fun i hi => (hall i hi).2, ?_⟩
  · obtain ⟨i, hi⟩ := List.exists_mem_of_ne_nil g.2 hne
    have hk := (hall i hi).2
    unfold stemKeyAt at hk
    rcases hnode : nodes.getD i (CLine.lyric [] 0) with ⟨t, j⟩ | ⟨m, c, j⟩
    · rw [hnode] at hk
      rw [stemOf_eq_some hk, lowerStr_idem]
    · rw [hnode] at hk
      exact absurd hk (by simp)
  · intro kidsOf idxArr c hc
    exact suffixChildren_labels kidsOf stemLen nodes idxArr c hc

def c10Nodes : List CLine :=
  [CLine.lyric "Don't STOP Me now".data 0,
   CLine.lyric "DON'T stop me again!".data 1]

theorem C10_witness :
    lowerStr "don't stop me".data = "don't stop me".data ∧
      stemKeyAt 3 c10Nodes 0 = some "don't stop me".data :=
  ⟨(C10_raw_lowercase_stems 3 c10Nodes ("don't stop me".data, [0, 1])
      (by decide)).1,
   (C10_raw_lowercase_stems 3 c10Nodes ("don't stop me".data, [0, 1])
      (by decide)).2.1 0 (by decide)⟩

/-!
## Claim C1 — line coverage of the tree
-/

/-- `groupByStem` on a level of at least two nodes: one grouping pass with
stem length 3, else 2, else the standalone fallback; the recursive call on
each singleton matched line reduces to the line's copy. -/
theorem groupByStem_eq_level (nodes : List CLine) (mc : Nat)
    (h : 2 ≤ nodes.length) :
    groupByStem nodes mc =
      if validStems mc 3 nodes ≠ [] then
        levelResult (fun n => [cline2node n]) 3 nodes (validStems mc 3 nodes)
      else if validStems mc 2 nodes ≠ [] then
        levelResult (fun n => [cline2node n]) 2 nodes (validStems mc 2 nodes)
      else nodes.map fallbackLeaf := by
  obtain ⟨f, hf⟩ : ∃ f, nodes.length = f + 1 := ⟨nodes.length - 1, by omega⟩
  unfold groupByStem
  conv_lhs => rw [hf]
  show groupByStemF (f + 1) nodes mc = _
  simp only [groupByStemF]
  rw [if_neg (by omega)]
  have hk : (fun node => groupByStemF f [node] mc)
      = fun node => [cline2node node] := by
    funext node
    exact groupByStemF_single f node mc
  rw [hk]

theorem mem_usedFold (i : Nat) :
    ∀ (valid : List (List Char × List Nat)) (init : List Nat),
      (i ∈ List.foldl (fun acc (g : List Char × List Nat) => acc ++ g.2)
          init valid)
        ↔ i ∈ init ∨ ∃ g ∈ valid, i ∈ g.2 := by
  intro valid
  induction valid with
  | nil => simp
  | cons g rest ih =>
    intro init
    rw [List.foldl_cons, ih]
    simp only [List.mem_append, List.mem_cons]
    constructor
    · rintro (⟨h1 | h1⟩ | ⟨g2, hg2, h2⟩)
      · exact Or.inl h1
      · exact Or.inr ⟨g, Or.inl rfl, h1⟩
      · exact Or.inr ⟨g2, Or.inr hg2, h2⟩
    · rintro (h1 | ⟨g2, (h2 | h2), h3⟩)
      · exact Or.inl (Or.inl h1)
      · exact Or.inl (Or.inr (h2 ▸ h3))
      · exact Or.inr ⟨g2, h2, h3⟩

theorem mem_usedIdxOf (i : Nat) (valid : List (List Char × List Nat)) :
    i ∈ usedIdxOf valid ↔ ∃ g ∈ valid, i ∈ g.2 := by
  unfold usedIdxOf
  rw [mem_usedFold]
  simp

/-- A node not captured by any kept stem appears as its standalone leaf in
the level's output. -/
theorem fallback_mem_levelResult (kidsOf : CLine → List MNode) (stemLen : Nat)
    (nodes : List CLine) (valid : List (List Char × List Nat)) (i : Nat)
    (h : i < nodes.length) (hun : i ∉ usedIdxOf valid) :
    fallbackLeaf (nodes.getD i (CLine.lyric [] 0))
      ∈ levelResult kidsOf stemLen nodes valid := by
  unfold levelResult
  apply List.mem_append_right
  apply List.mem_map.mpr
  refine ⟨(i, nodes.getD i (CLine.lyric [] 0)), ?_, rfl⟩
  apply List.mem_filter.mpr
  refine ⟨?_, by simpa using hun⟩
  rw [List.getD_eq_getElem _ _ h]
  exact List.mk_mem_enum_iff_getElem?.mpr (List.getElem?_eq_getElem h)

/-- Distinct map entries never share an index, so an index is counted at most
once among the groups. -/
theorem countP_le_one_of_inj (i : Nat) :
    ∀ (l : List (List Char × List Nat)),
      (l.map Prod.fst).Nodup →
      (∀ g ∈ l, ∀ g2 ∈ l, i ∈ g.2 → i ∈ g2.2 → g.1 = g2.1) →
      l.countP (fun g => decide (i ∈ g.2)) ≤ 1 := by
  intro l
  induction l with
  | nil => simp
  | cons g rest ih =>
    intro hnd hkey
    rw [List.countP_cons]
    by_cases hig : i ∈ g.2
    · have hto : rest.countP (fun g2 => decide (i ∈ g2.2)) = 0 := by
        apply List.countP_eq_zero.mpr
        intro g2 hg2
        simp only [decide_eq_true_eq]
        intro hig2
        have heq : g.1 = g2.1 :=
          hkey g (List.mem_cons_self _ _) g2 (List.mem_cons_of_mem _ hg2) hig
            hig2
        have : g.1 ∉ rest.map Prod.fst := (List.nodup_cons.mp hnd).1
        exact this (heq ▸ List.mem_map_of_mem Prod.fst hg2)
      simp [hig, hto]
    · simp only [hig, decide_eq_false, if_false, Nat.add_zero]
      exact ih (List.nodup_cons.mp hnd).2
        (fun g1 h1 g2 h2 => hkey g1 (List.mem_cons_of_mem _ h1) g2
          (List.mem_cons_of_mem _ h2))

/-- C1 counterexample: for the input `"a b\nc d"` the root label is the first
line `"a b"`, and the same line also appears as a standalone child node — the
builder hands *all* classified lines (root line included) to the stem
grouper, so the root-label line is duplicated, contradicting the claim. -/
theorem C1_counterexample :
    (buildMindmapTree "a b\nc d".data).label = some "a b".data ∧
      (buildMindmapTree "a b\nc d".data).children.map MNode.label
        = [some "a b".data, some "c d".data] := ⟨rfl, rfl⟩

/-- C1 amended: at a grouping level, each position belongs to at most one
selected stem group (so no line becomes two independent stem children), and a
position captured by no selected group contributes exactly its standalone
node to the level's output; the root-label line is *not* excluded from this
process — it is grouped or emitted like any other line, so it can reappear
under the root (see the counterexample), and a line inside a stem group may
be dropped by suffix deduplication rather than emitted. -/
theorem C1_amended_level_partition (nodes : List CLine) (i : Nat)
    (h : i < nodes.length) (h2 : 2 ≤ nodes.length) :
    (chosenStems 2 nodes).countP (fun g => decide (i ∈ g.2)) ≤ 1 ∧
      ((∀ g ∈ chosenStems 2 nodes, i ∉ g.2) →
        fallbackLeaf (nodes.getD i (CLine.lyric [] 0)) ∈ groupByStem nodes 2) := by
  constructor
  · have hs : List.Sublist (chosenStems 2 nodes)
        (stemGroups (chosenStemLen 2 nodes) nodes) := by
      unfold chosenStems validStems
      exact List.filter_sublist _
    have hnd : ((chosenStems 2 nodes).map Prod.fst).Nodup :=
      ((stemGroups_inv (chosenStemLen 2 nodes) nodes).1).sublist
        (hs.map Prod.fst)
    apply countP_le_one_of_inj i _ hnd
    intro g hg g2 hg2 hig hig2
    have hks := (stemGroups_inv (chosenStemLen 2 nodes) nodes).2
    have e1 := ((hks g (hs.subset hg)).2.2 i hig).2
    have e2 := ((hks g2 (hs.subset hg2)).2.2 i hig2).2
    exact Option.some.inj (e1.symm.trans e2)
  · intro hun
    rw [groupByStem_eq_level nodes 2 h2]
    unfold chosenStems chosenStemLen at hun
    by_cases h3 : validStems 2 3 nodes ≠ []
    · rw [if_pos h3]
      apply fallback_mem_levelResult _ _ _ _ _ h
      rw [mem_usedIdxOf]
      rintro ⟨g, hg, hig⟩
      rw [if_pos h3] at hun
      exact hun g hg hig
    · rw [if_neg h3]
      by_cases h4 : validStems 2 2 nodes ≠ []
      · rw [if_pos h4]
        apply fallback_mem_levelResult _ _ _ _ _ h
        rw [mem_usedIdxOf]
        rintro ⟨g, hg, hig⟩
        rw [if_neg h3] at hun
        exact hun g hg hig
      · rw [if_neg h4]
        apply List.mem_map.mpr
        refine ⟨nodes.getD i (CLine.lyric [] 0), ?_, rfl⟩
        rw [List.getD_eq_getElem _ _ h]
        exact List.getElem_mem h

def c1Nodes : List CLine :=
  [CLine.lyric "a b c".data 0, CLine.lyric "a b d".data 1,
   CLine.lyric "solo line x".data 2]

theorem C1_witness :
    fallbackLeaf (c1Nodes.getD 2 (CLine.lyric [] 0)) ∈ groupByStem c1Nodes 2 :=
  (C1_amended_level_partition c1Nodes 2 (by decide) (by decide)).2 (by decide)

/-!
## Claim C4 — properties of the repeated-block finder
-/

theorem toLower_eq_nl {c : Char} (h : c.toLower = '\n') : c = '\n' := by
  unfold Char.toLower at h
  by_cases hc : c.toNat ≥ 65 ∧ c.toNat ≤ 90
  · rw [if_pos hc] at h
    have hv : (c.toNat + 32).isValidChar := Or.inl (by omega)
    have ht : (Char.ofNat (c.toNat + 32)).toNat = c.toNat + 32 := by
      unfold Char.ofNat
      rw [dif_pos hv]
      rfl
    have h2 := congrArg Char.toNat h
    rw [ht] at h2
    rw [show ('\n').toNat = 10 from rfl] at h2
    omega
  · rwa [if_neg hc] at h

theorem mem_trimSpaces {c : Char} {l : List Char} (h : c ∈ trimSpaces l) :
    c ∈ l := by
  unfold trimSpaces at h
  rw [List.mem_reverse] at h
  have h2 := (List.dropWhile_sublist _).subset h
  rw [List.mem_reverse] at h2
  exact (List.dropWhile_sublist _).subset h2

theorem nl_not_mem_normalizeLine (l : List Char) :
    '\n' ∉ normalizeLine l := by
  intro h
  unfold normalizeLine at h
  obtain ⟨c, hc, hlow⟩ := List.mem_map.mp h
  have hcn : c = '\n' := toLower_eq_nl hlow
  rw [hcn] at hc
  have := mem_trimSpaces hc
  have := List.mem_filter.mp this
  simp [allowedChar, apos] at this

theorem splitNlAux_no_nl {x : List Char} (hx : '\n' ∉ x) :
    ∀ (acc s : List Char),
      splitNlAux acc (x ++ s) = splitNlAux (x.reverse ++ acc) s := by
  induction x with
  | nil => intro acc s; simp
  | cons c x2 ih =>
    intro acc s
    have hc : c ≠ '\n' := fun he => hx (he ▸ List.mem_cons_self c x2)
    have hx2 : '\n' ∉ x2 := fun he => hx (List.mem_cons_of_mem c he)
    rw [List.cons_append]
    rw [show splitNlAux acc (c :: (x2 ++ s))
        = splitNlAux (c :: acc) (x2 ++ s) from by
      simp only [splitNlAux, hc]]
    rw [ih hx2]
    simp

theorem intercalate_single {α : Type} (s x : List α) :
    List.intercalate s [x] = x := by
  simp [List.intercalate]

theorem intercalate_cons2 {α : Type} (s x y : List α) (L : List (List α)) :
    List.intercalate s (x :: y :: L) = x ++ s ++ List.intercalate s (y :: L) := by
  simp [List.intercalate]

theorem splitNl_single {x : List Char} (hx : '\n' ∉ x) : splitNl x = [x] := by
  unfold splitNl
  rw [show x = x ++ [] from (List.append_nil x).symm, splitNlAux_no_nl hx]
  simp [splitNlAux]

theorem splitNl_append {x s : List Char} (hx : '\n' ∉ x) :
    splitNl (x ++ '\n' :: s) = x :: splitNl s := by
  unfold splitNl
  rw [splitNlAux_no_nl hx]
  simp only [splitNlAux]
  simp

theorem splitNl_intercalate :
    ∀ (L : List (List Char)), L ≠ [] → (∀ l ∈ L, '\n' ∉ l) →
      splitNl (List.intercalate ['\n'] L) = L := by
  intro L
  induction L with
  | nil => intro h; exact absurd rfl h
  | cons x L2 ih =>
    intro _ hnl
    cases L2 with
    | nil =>
      rw [intercalate_single]
      exact splitNl_single (hnl x (List.mem_cons_self _ _))
    | cons y L3 =>
      rw [intercalate_cons2]
      rw [List.append_assoc]
      rw [show ['\n'] ++ List.intercalate ['\n'] (y :: L3)
          = '\n' :: List.intercalate ['\n'] (y :: L3) from rfl]
      rw [splitNl_append (hnl x (List.mem_cons_self _ _))]
      rw [ih (by simp) (fun l hl => hnl l (List.mem_cons_of_mem _ hl))]

theorem windowKey_splitNl (lines : List (List Char)) (i blockLen : Nat)
    (h1 : 1 ≤ blockLen) (h2 : i + blockLen ≤ lines.length) :
    splitNl (windowKey lines i blockLen)
      = ((lines.drop i).take blockLen).map normalizeLine := by
  unfold windowKey
  apply splitNl_intercalate
  · have hlen : (((lines.drop i).take blockLen).map normalizeLine).length
        = blockLen := by
      simp only [List.length_map, List.length_take, List.length_drop]
      omega
    intro he
    rw [he] at hlen
    simp at hlen
    omega
  · intro l hl
    obtain ⟨l0, _, he⟩ := List.mem_map.mp hl
    rw [show l = normalizeLine l0 from he.symm]
    exact nl_not_mem_normalizeLine l0

theorem windowKey_len (lines : List (List Char)) (i blockLen : Nat)
    (h1 : 1 ≤ blockLen) (h2 : i + blockLen ≤ lines.length) :
    (splitNl (windowKey lines i blockLen)).length = blockLen := by
  rw [windowKey_splitNl lines i blockLen h1 h2]
  simp only [List.length_map, List.length_take, List.length_drop]
  omega

/-- A fold preserves any invariant its step preserves. -/
theorem foldl_inv {α β : Type} (step : β → α → β) (P : β → Prop) :
    ∀ (l : List α) (b : β), (∀ a ∈ l, ∀ b2, P b2 → P (step b2 a)) → P b →
      P (List.foldl step b l) := by
  intro l
  induction l with
  | nil => intro b _ hb; exact hb
  | cons a l2 ih =>
    intro b hstep hb
    rw [List.foldl_cons]
    exact ih _ (fun a2 ha2 => hstep a2 (List.mem_cons_of_mem _ ha2))
      (hstep a (List.mem_cons_self _ _) b hb)

/-- Every entry of the block map records a window length 2..6 (within the
requested minimum) and start positions whose windows produce the entry's
key. -/
def GoodEntry (lines : List (List Char)) (mn : Nat)
    (e : List Char × List Nat) : Prop :=
  ∃ blockLen, max mn 2 ≤ blockLen ∧ blockLen ≤ 6 ∧
    (splitNl e.1).length = blockLen ∧
    ∀ idx ∈ e.2, idx + blockLen ≤ lines.length ∧
      windowKey lines idx blockLen = e.1

theorem pushEntry_goodEntry {lines : List (List Char)} {mn : Nat}
    {m : List (List Char × List Nat)}
    (hm : ∀ e ∈ m, GoodEntry lines mn e) (blockLen i : Nat)
    (hbl : max mn 2 ≤ blockLen) (hb6 : blockLen ≤ 6)
    (hi : i + blockLen ≤ lines.length) :
    ∀ e ∈ pushEntry (windowKey lines i blockLen) i m,
      GoodEntry lines mn e := by
  have h1 : 1 ≤ blockLen := by omega
  have hklen : (splitNl (windowKey lines i blockLen)).length = blockLen :=
    windowKey_len lines i blockLen h1 hi
  intro e he
  rcases pushEntry_mem he with h2 | ⟨vs, hvs, he2⟩ | h2
  · exact hm e h2
  · obtain ⟨bl2, hbl2, hb62, hsl2, hall2⟩ := hm _ hvs
    have hble : bl2 = blockLen := by
      rw [show (windowKey lines i blockLen, vs).fst
          = windowKey lines i blockLen from rfl] at hsl2
      rw [hklen] at hsl2
      omega
    subst hble
    rw [he2]
    refine ⟨bl2, hbl2, hb62, hklen, ?_⟩
    intro idx hidx
    rcases List.mem_append.mp hidx with h3 | h3
    · exact hall2 idx h3
    · rw [List.mem_singleton] at h3
      rw [h3]
      exact ⟨hi, rfl⟩
  · rw [h2]
    refine ⟨blockLen, hbl, hb6, hklen, ?_⟩
    intro idx hidx
    rw [List.mem_singleton] at hidx
    rw [hidx]
    exact ⟨hi, rfl⟩

theorem blockMapOf_good (mn : Nat) (lines : List (List Char)) :
    ∀ e ∈ blockMapOf mn lines, GoodEntry lines mn e := by
  unfold blockMapOf
  apply foldl_inv _ (fun m => ∀ e ∈ m, GoodEntry lines mn e)
  · intro blockLen hbl m hm
    have hrange := List.mem_range'_1.mp hbl
    apply foldl_inv _ (fun m => ∀ e ∈ m, GoodEntry lines mn e)
    · intro i hi m2 hm2
      have hir := List.mem_range.mp hi
      exact pushEntry_goodEntry hm2 blockLen i (by omega) (by omega) (by omega)
    · exact hm
  · simp

/-- Well-formedness of an accepted block. -/
def BlockWF (lines : List (List Char)) (mn : Nat) (b : Block) : Prop :=
  max mn 2 ≤ b.length ∧ b.length ≤ 6 ∧ b.stop = b.start + b.length ∧
  2 ≤ b.count ∧ b.start + b.length ≤ lines.length ∧
  b.textArr = ((lines.drop b.start).take b.length).map normalizeLine

/-- Disjoint spans. -/
def Disj (b1 b2 : Block) : Prop := b1.stop ≤ b2.start ∨ b2.stop ≤ b1.start

theorem acceptOccs_inv {lines : List (List Char)} {mn : Nat}
    {key : List Char} {indices : List Nat}
    (hgood : GoodEntry lines mn (key, indices))
    (hcount : 2 ≤ indices.length) (bs : List Block)
    (hbs : (∀ b ∈ bs, BlockWF lines mn b) ∧ bs.Pairwise Disj) :
    (∀ b ∈ acceptOccs bs key indices, BlockWF lines mn b) ∧
      (acceptOccs bs key indices).Pairwise Disj := by
  obtain ⟨blockLen, hbl, hb6, hsl, hall⟩ := hgood
  unfold acceptOccs
  apply foldl_inv _
    (fun bs2 => (∀ b ∈ bs2, BlockWF lines mn b) ∧ bs2.Pairwise Disj) _ _ _ hbs
  intro idx hidx bs2 hinv
  obtain ⟨hwf, hpw⟩ := hinv
  obtain ⟨hle, hwk⟩ := hall idx hidx
  by_cases hov : (bs2.any fun b =>
      (decide (b.start ≤ idx) && decide (idx < b.stop)) ||
      (decide (idx ≤ b.start) &&
        decide (b.start < idx + (splitNl key).length))) = true
  · simp only [hov, if_true]
    exact ⟨hwf, hpw⟩
  · rw [if_neg hov]
    rw [List.any_eq_true] at hov
    push_neg at hov
    have hparts : splitNl key = ((lines.drop idx).take blockLen).map
        normalizeLine := by
      rw [show key = windowKey lines idx blockLen from hwk.symm]
      exact windowKey_splitNl lines idx blockLen (by omega) hle
    have hnew : BlockWF lines mn
        ⟨idx, idx + (splitNl key).length, (splitNl key).length, splitNl key,
          indices.length⟩ := by
      refine ⟨?_, ?_, rfl, hcount, ?_, ?_⟩
      · show max mn 2 ≤ (splitNl key).length
        rw [show (splitNl key).length = blockLen from hsl]
        exact hbl
      · show (splitNl key).length ≤ 6
        rw [show (splitNl key).length = blockLen from hsl]
        exact hb6
      · show idx + (splitNl key).length ≤ lines.length
        rw [show (splitNl key).length = blockLen from hsl]
        exact hle
      · show splitNl key = ((lines.drop idx).take (splitNl key).length).map
            normalizeLine
        rw [show (splitNl key).length = blockLen from hsl]
        exact hparts
    constructor
    · intro b hb
      rcases List.mem_append.mp hb with h1 | h1
      · exact hwf b h1
      · rw [List.mem_singleton] at h1
        rw [h1]
        exact hnew
    · rw [List.pairwise_append]
      refine ⟨hpw, List.pairwise_singleton _ _, ?_⟩
      intro b hb b2 hb2
      rw [List.mem_singleton] at hb2
      rw [hb2]
      have hbwf := hwf b hb
      have hno : ((decide (b.start ≤ idx) && decide (idx < b.stop)) ||
          (decide (idx ≤ b.start) &&
            decide (b.start < idx + (splitNl key).length))) = false :=
        Bool.eq_false_iff.mpr (hov b hb)
      simp only [Bool.or_eq_false_iff, Bool.and_eq_false_iff,
        decide_eq_false_iff_not] at hno
      have hsl2 : (splitNl key).length = blockLen := hsl
      unfold Disj
      simp only []
      obtain ⟨hs, _, hstop, _, _, _⟩ := hbwf
      omega

theorem insertByLe_perm {α : Type} (le : α → α → Bool) (x : α) :
    ∀ l : List α, List.Perm (insertByLe le x l) (x :: l) := by
  intro l
  induction l with
  | nil => exact List.Perm.refl _
  | cons y ys ih =>
    unfold insertByLe
    by_cases h : le y x = true
    · rw [if_pos h]
      exact (List.Perm.cons y ih).trans (List.Perm.swap x y ys)
    · rw [if_neg h]

theorem sortFold_perm {α : Type} (le : α → α → Bool) :
    ∀ (l acc : List α),
      List.Perm (List.foldl (fun acc2 x => insertByLe le x acc2) acc l)
        (acc ++ l) := by
  intro l
  induction l with
  | nil => intro acc; simp
  | cons x l2 ih =>
    intro acc
    rw [List.foldl_cons]
    refine (ih (insertByLe le x acc)).trans ?_
    refine ((insertByLe_perm le x acc).append_right l2).trans ?_
    rw [List.cons_append]
    exact List.perm_middle.symm

theorem stableSortBy_perm {α : Type} (le : α → α → Bool) (l : List α) :
    List.Perm (stableSortBy le l) l := by
  unfold stableSortBy
  simpa using sortFold_perm le l []

/-- C4 (amended): every block the finder returns has length 2..6 (at least
the requested minimum), a span `[start, start + length)` within the input,
an occurrence count of at least 2, and a text array equal to its normalized
window; and an occurrence is accepted only when its span overlaps no
already-accepted block, so the returned blocks are pairwise span-disjoint.
(Occurrences are processed per map entry — block length ascending, then
first-window position — not in one global ascending start order, and *every*
non-overlapping occurrence becomes its own block; see the counterexample.) -/
theorem C4_block_structure (lines : List (List Char)) (minBlockLen : Nat) :
    (∀ b ∈ findRepeatedBlocks lines minBlockLen,
        max minBlockLen 2 ≤ b.length ∧ b.length ≤ 6 ∧
        b.stop = b.start + b.length ∧ 2 ≤ b.count ∧
        b.start + b.length ≤ lines.length ∧
        b.textArr = ((lines.drop b.start).take b.length).map normalizeLine) ∧
    (findRepeatedBlocks lines minBlockLen).Pairwise
      (fun b1 b2 => b1.stop ≤ b2.start ∨ b2.stop ≤ b1.start) := by
  have hfold := foldl_inv
    (fun bs (e : List Char × List Nat) =>
      if 1 < e.2.length then acceptOccs bs e.1 e.2 else bs)
    (fun bs => (∀ b ∈ bs, BlockWF lines minBlockLen b) ∧ bs.Pairwise Disj)
    (blockMapOf minBlockLen lines) []
    (by
      intro e he bs hbs
      dsimp only
      by_cases hc : 1 < e.2.length
      · rw [if_pos hc]
        exact acceptOccs_inv (blockMapOf_good minBlockLen lines e he)
          (by omega) bs hbs
      · rw [if_neg hc]
        exact hbs)
    ⟨by simp, List.Pairwise.nil⟩
  have hperm := stableSortBy_perm (fun a b => decide (a.start ≤ b.start))
    ((blockMapOf minBlockLen lines).foldl
      (fun bs e => if 1 < e.2.length then acceptOccs bs e.1 e.2 else bs) [])
  constructor
  · intro b hb
    exact hfold.1 b (hperm.subset hb)
  · exact (hperm.pairwise_iff (fun h => h.symm)).mpr hfold.2

def c4Lines : List (List Char) :=
  ["first chorus line".data, "second chorus line".data,
   "a bridge goes here".data, "first chorus line".data,
   "second chorus line".data]

/-- C4 counterexample: with a two-line chorus repeated at positions 0 and 3,
the finder accepts *both* occurrences as separate blocks (their spans do not
overlap) instead of collapsing the later occurrence into the first block's
repeat count — the claim's "later occurrences are collapsed into its repeat
count rather than accepted as separate blocks" fails. -/
theorem C4_counterexample :
    (findRepeatedBlocks c4Lines 2).map Block.start = [0, 3] := rfl

theorem C4_witness :
    (max 2 2 ≤ (2 : Nat) ∧ (2 : Nat) ≤ 6 ∧ (2 : Nat) = 0 + 2 ∧
      (2 : Nat) ≤ 2 ∧ 0 + 2 ≤ c4Lines.length ∧
      ["first chorus line".data, "second chorus line".data]
        = ((c4Lines.drop 0).take 2).map normalizeLine) :=
  (C4_block_structure c4Lines 2).1
    ⟨0, 2, 2, ["first chorus line".data, "second chorus line".data], 2⟩
    (by decide)

/-!
## Claim C2 — the `[A, B, A, B]` input
-/

theorem interNe {L1 L2 : List (List Char)} (h1 : L1 ≠ []) (h2 : L2 ≠ [])
    (hn1 : ∀ l ∈ L1, '\n' ∉ l) (hn2 : ∀ l ∈ L2, '\n' ∉ l) (hne : L1 ≠ L2) :
    List.intercalate ['\n'] L1 ≠ List.intercalate ['\n'] L2 := by
  intro he
  apply hne
  rw [← splitNl_intercalate L1 h1 hn1, ← splitNl_intercalate L2 h2 hn2, he]

def c2Input : List Char :=
  "hello there friend\ngoodbye cruel world\nhello there friend\ngoodbye cruel world".data

/-- C2 counterexample: on a concrete `[A, B, A, B]` input the finder reports
*two* blocks, not exactly one — the later, non-overlapping occurrence at
index 2 is accepted as its own block. -/
theorem C2_counterexample :
    (findRepeatedBlocks ["hello there friend".data,
      "goodbye cruel world".data, "hello there friend".data,
      "goodbye cruel world".data] 2).length = 2 := rfl

/-- C2 amended: for any lines `A`, `B` with distinct normalizations, the
finder on `[A, B, A, B]` reports two blocks of length 2 — at starts 0 and 2,
each carrying occurrence count 2 — because the second occurrence's span does
not overlap the first and is therefore accepted as its own block; and in the
branching tree builder (concrete instance) the lines at indices 1, 2 and 3
still contribute no separate standalone nodes: the whole input collapses
into one stem-group branch (index 2's suffix is deduplicated against index
0's, and indices 1 and 3 are skipped as lying inside another block's span
with the `blockFirstOccurrence` slot pointing elsewhere). -/
theorem C2_abab_two_blocks :
    (∀ A B : List Char, normalizeLine A ≠ normalizeLine B →
      findRepeatedBlocks [A, B, A, B] 2
        = [⟨0, 2, 2, [normalizeLine A, normalizeLine B], 2⟩,
           ⟨2, 4, 2, [normalizeLine A, normalizeLine B], 2⟩]) ∧
    (buildBranchingMindmapTree c2Input).branches
      = [MNode.mk (some "hello there friend".data) false none none none none
           none none [leafNode "(...)".data]] := by
  constructor
  · intro A B hab
    have hnA : '\n' ∉ normalizeLine A := nl_not_mem_normalizeLine A
    have hnB : '\n' ∉ normalizeLine B := nl_not_mem_normalizeLine B
    set nA := normalizeLine A with hdefA
    set nB := normalizeLine B with hdefB
    have hk20 : windowKey [A, B, A, B] 0 2 = List.intercalate ['\n'] [nA, nB] := rfl
    have hk21 : windowKey [A, B, A, B] 1 2 = List.intercalate ['\n'] [nB, nA] := rfl
    have hk22 : windowKey [A, B, A, B] 2 2 = List.intercalate ['\n'] [nA, nB] := rfl
    have hk30 : windowKey [A, B, A, B] 0 3 = List.intercalate ['\n'] [nA, nB, nA] := rfl
    have hk31 : windowKey [A, B, A, B] 1 3 = List.intercalate ['\n'] [nB, nA, nB] := rfl
    have hk40 : windowKey [A, B, A, B] 0 4 = List.intercalate ['\n'] [nA, nB, nA, nB] := rfl
    have hf2 : ∀ l ∈ [nA, nB], '\n' ∉ l := by
      intro l hl
      simp only [List.mem_cons, List.not_mem_nil, or_false] at hl
      rcases hl with rfl | rfl
      · exact hnA
      · exact hnB
    have hf2r : ∀ l ∈ [nB, nA], '\n' ∉ l := by
      intro l hl
      simp only [List.mem_cons, List.not_mem_nil, or_false] at hl
      rcases hl with rfl | rfl
      · exact hnB
      · exact hnA
    have hf3 : ∀ l ∈ [nA, nB, nA], '\n' ∉ l := by
      intro l hl
      simp only [List.mem_cons, List.not_mem_nil, or_false] at hl
      rcases hl with rfl | rfl | rfl
      · exact hnA
      · exact hnB
      · exact hnA
    have hf3r : ∀ l ∈ [nB, nA, nB], '\n' ∉ l := by
      intro l hl
      simp only [List.mem_cons, List.not_mem_nil, or_false] at hl
      rcases hl with rfl | rfl | rfl
      · exact hnB
      · exact hnA
      · exact hnB
    have hf4 : ∀ l ∈ [nA, nB, nA, nB], '\n' ∉ l := by
      intro l hl
      simp only [List.mem_cons, List.not_mem_nil, or_false] at hl
      rcases hl with rfl | rfl | rfl | rfl
      · exact hnA
      · exact hnB
      · exact hnA
      · exact hnB
    -- pairwise inequality of distinct keys
    have n1 : List.intercalate ['\n'] [nA, nB] ≠ List.intercalate ['\n'] [nB, nA] :=
      interNe (by simp) (by simp) hf2 hf2r (by simp; intro h1 h2; exact hab h1)
    have n2 : List.intercalate ['\n'] [nA, nB] ≠ List.intercalate ['\n'] [nA, nB, nA] :=
      interNe (by simp) (by simp) hf2 hf3 (by simp)
    have n3 : List.intercalate ['\n'] [nB, nA] ≠ List.intercalate ['\n'] [nA, nB, nA] :=
      interNe (by simp) (by simp) hf2r hf3 (by simp)
    have n4 : List.intercalate ['\n'] [nA, nB] ≠ List.intercalate ['\n'] [nB, nA, nB] :=
      interNe (by simp) (by simp) hf2 hf3r (by simp)
    have n5 : List.intercalate ['\n'] [nB, nA] ≠ List.intercalate ['\n'] [nB, nA, nB] :=
      interNe (by simp) (by simp) hf2r hf3r (by simp)
    have n6 : List.intercalate ['\n'] [nA, nB, nA] ≠ List.intercalate ['\n'] [nB, nA, nB] :=
      interNe (by simp) (by simp) hf3 hf3r (by simp; intro h1 h2 h3; exact hab h1)
    have n7 : List.intercalate ['\n'] [nA, nB] ≠ List.intercalate ['\n'] [nA, nB, nA, nB] :=
      interNe (by simp) (by simp) hf2 hf4 (by simp)
    have n8 : List.intercalate ['\n'] [nB, nA] ≠ List.intercalate ['\n'] [nA, nB, nA, nB] :=
      interNe (by simp) (by simp) hf2r hf4 (by simp)
    have n9 : List.intercalate ['\n'] [nA, nB, nA] ≠ List.intercalate ['\n'] [nA, nB, nA, nB] :=
      interNe (by simp) (by simp) hf3 hf4 (by simp)
    have n10 : List.intercalate ['\n'] [nB, nA, nB] ≠ List.intercalate ['\n'] [nA, nB, nA, nB] :=
      interNe (by simp) (by simp) hf3r hf4 (by simp)
    have e1 : pushEntry (List.intercalate ['\n'] [nA, nB]) 0
        ([] : List (List Char × List Nat))
        = [(List.intercalate ['\n'] [nA, nB], [0])] := rfl
    have e2 : pushEntry (List.intercalate ['\n'] [nB, nA]) 1
        [(List.intercalate ['\n'] [nA, nB], [0])]
        = [(List.intercalate ['\n'] [nA, nB], [0]),
           (List.intercalate ['\n'] [nB, nA], [1])] := by
      simp only [pushEntry]
      rw [if_neg n1]
    have e3 : pushEntry (List.intercalate ['\n'] [nA, nB]) 2
        [(List.intercalate ['\n'] [nA, nB], [0]),
         (List.intercalate ['\n'] [nB, nA], [1])]
        = [(List.intercalate ['\n'] [nA, nB], [0, 2]),
           (List.intercalate ['\n'] [nB, nA], [1])] := by
      simp only [pushEntry]
      simp
    have e4 : pushEntry (List.intercalate ['\n'] [nA, nB, nA]) 0
        [(List.intercalate ['\n'] [nA, nB], [0, 2]),
         (List.intercalate ['\n'] [nB, nA], [1])]
        = [(List.intercalate ['\n'] [nA, nB], [0, 2]),
           (List.intercalate ['\n'] [nB, nA], [1]),
           (List.intercalate ['\n'] [nA, nB, nA], [0])] := by
      simp only [pushEntry]
      rw [if_neg n2, if_neg n3]
    have e5 : pushEntry (List.intercalate ['\n'] [nB, nA, nB]) 1
        [(List.intercalate ['\n'] [nA, nB], [0, 2]),
         (List.intercalate ['\n'] [nB, nA], [1]),
         (List.intercalate ['\n'] [nA, nB, nA], [0])]
        = [(List.intercalate ['\n'] [nA, nB], [0, 2]),
           (List.intercalate ['\n'] [nB, nA], [1]),
           (List.intercalate ['\n'] [nA, nB, nA], [0]),
           (List.intercalate ['\n'] [nB, nA, nB], [1])] := by
      simp only [pushEntry]
      rw [if_neg n4, if_neg n5, if_neg n6]
    have e6 : pushEntry (List.intercalate ['\n'] [nA, nB, nA, nB]) 0
        [(List.intercalate ['\n'] [nA, nB], [0, 2]),
         (List.intercalate ['\n'] [nB, nA], [1]),
         (List.intercalate ['\n'] [nA, nB, nA], [0]),
         (List.intercalate ['\n'] [nB, nA, nB], [1])]
        = [(List.intercalate ['\n'] [nA, nB], [0, 2]),
           (List.intercalate ['\n'] [nB, nA], [1]),
           (List.intercalate ['\n'] [nA, nB, nA], [0]),
           (List.intercalate ['\n'] [nB, nA, nB], [1]),
           (List.intercalate ['\n'] [nA, nB, nA, nB], [0])] := by
      simp only [pushEntry]
      rw [if_neg n7, if_neg n8, if_neg n9, if_neg n10]
    have hr : List.range' (max 2 2) (7 - max 2 2) = [2, 3, 4, 5, 6] := rfl
    have r2 : List.range ([A, B, A, B].length + 1 - 2) = [0, 1, 2] := rfl
    have r3 : List.range ([A, B, A, B].length + 1 - 3) = [0, 1] := rfl
    have r4 : List.range ([A, B, A, B].length + 1 - 4) = [0] := rfl
    have r5 : List.range ([A, B, A, B].length + 1 - 5) = [] := rfl
    have r6 : List.range ([A, B, A, B].length + 1 - 6) = [] := rfl
    have hM : blockMapOf 2 [A, B, A, B]
        = [(List.intercalate ['\n'] [nA, nB], [0, 2]),
           (List.intercalate ['\n'] [nB, nA], [1]),
           (List.intercalate ['\n'] [nA, nB, nA], [0]),
           (List.intercalate ['\n'] [nB, nA, nB], [1]),
           (List.intercalate ['\n'] [nA, nB, nA, nB], [0])] := by
      simp only [blockMapOf, hr, r2, r3, r4, r5, r6, List.foldl_cons,
        List.foldl_nil, hk20, hk21, hk22, hk30, hk31, hk40, e1, e2, e3, e4, e5,
        e6]
    have hsplit2 : splitNl (List.intercalate ['\n'] [nA, nB]) = [nA, nB] :=
      splitNl_intercalate _ (by simp) hf2
    have hacc : acceptOccs [] (List.intercalate ['\n'] [nA, nB]) [0, 2]
        = [⟨0, 2, 2, [nA, nB], 2⟩, ⟨2, 4, 2, [nA, nB], 2⟩] := by
      unfold acceptOccs
      simp only [List.foldl_cons, List.foldl_nil, hsplit2]
      simp
    unfold findRepeatedBlocks
    rw [hM]
    simp only [List.foldl_cons, List.foldl_nil]
    simp only [List.length_cons, List.length_singleton, List.length_nil]
    norm_num
    rw [hacc]
    simp [stableSortBy, insertByLe]


  · rfl

theorem C2_witness :
    findRepeatedBlocks ["aa bb".data, "cc dd".data, "aa bb".data,
        "cc dd".data] 2
      = [⟨0, 2, 2, [normalizeLine "aa bb".data, normalizeLine "cc dd".data], 2⟩,
         ⟨2, 4, 2, [normalizeLine "aa bb".data, normalizeLine "cc dd".data], 2⟩] :=
  C2_abab_two_blocks.1 "aa bb".data "cc dd".data (by decide)

/-!
## Claim C7 — separator invariance of the discourse detector

`sepRep sep m k` is the line consisting of `k` copies of the marker `m`
separated by `sep` (`" "`, `"-"`, or nothing).
-/

def sepRep (sep m : List Char) : Nat → List Char
  | 0 => []
  | 1 => m
  | k + 2 => m ++ sep ++ sepRep sep m (k + 1)

/-- What follows the first copy of the marker in `sepRep sep m (k+1)`. -/
def sepTail (sep m : List Char) : Nat → List Char
  | 0 => []
  | j + 1 => sep ++ sepRep sep m (j + 1)

theorem sepRep_succ (sep m : List Char) (k : Nat) :
    sepRep sep m (k + 1) = m ++ sepTail sep m k := by
  cases k with
  | zero => simp [sepRep, sepTail]
  | succ j => simp [sepRep, sepTail, List.append_assoc]

theorem runAux_self (m : List Char) :
    ∀ (need s : List Char), runAux m need (need ++ s) = runAux m [] s := by
  intro need
  induction need with
  | nil => intro s; rfl
  | cons d need2 ih =>
    intro s
    rw [List.cons_append]
    show (if d = d then runAux m need2 (need2 ++ s) else false) = _
    rw [if_pos rfl]
    exact ih s

theorem markerRun_append (d : Char) (m2 s : List Char) :
    markerRun (d :: m2) ((d :: m2) ++ s) = runAux (d :: m2) [] s := by
  rw [List.cons_append]
  show (if d = d then runAux (d :: m2) m2 (m2 ++ s) else false) = _
  rw [if_pos rfl]
  exact runAux_self (d :: m2) m2 s

theorem runAux_sepTail_space (d : Char) (m2 : List Char) :
    ∀ j : Nat, runAux (d :: m2) [] (sepTail [' '] (d :: m2) j) = true := by
  intro j
  induction j with
  | zero => rfl
  | succ i ih =>
    show runAux (d :: m2) [] (' ' :: sepRep [' '] (d :: m2) (i + 1)) = true
    rw [sepRep_succ]
    rw [show (d :: m2) ++ sepTail [' '] (d :: m2) i
        = d :: (m2 ++ sepTail [' '] (d :: m2) i) from rfl]
    show (if ' ' = ' ' || ' ' = '-' then
        if d = d then runAux (d :: m2) m2 (m2 ++ sepTail [' '] (d :: m2) i)
        else false
      else _) = true
    rw [if_pos (by simp), if_pos rfl, runAux_self]
    exact ih

theorem runAux_sepTail_cat (d : Char) (m2 : List Char)
    (hd1 : d ≠ ' ') (hd2 : d ≠ '-') :
    ∀ j : Nat, runAux (d :: m2) [] (sepTail [] (d :: m2) j) = true := by
  intro j
  induction j with
  | zero => rfl
  | succ i ih =>
    show runAux (d :: m2) [] ([] ++ sepRep [] (d :: m2) (i + 1)) = true
    rw [List.nil_append, sepRep_succ]
    rw [show (d :: m2) ++ sepTail [] (d :: m2) i
        = d :: (m2 ++ sepTail [] (d :: m2) i) from rfl]
    rw [runAux.eq_def]
    simp only []
    rw [if_neg (by simp [hd1, hd2]), if_pos trivial, runAux_self]
    exact ih

theorem markerRun_sepRep_space (d : Char) (m2 : List Char) (j : Nat) :
    markerRun (d :: m2) (sepRep [' '] (d :: m2) (j + 1)) = true := by
  rw [sepRep_succ, markerRun_append]
  exact runAux_sepTail_space d m2 j

theorem markerRun_sepRep_cat (d : Char) (m2 : List Char)
    (hd1 : d ≠ ' ') (hd2 : d ≠ '-') (j : Nat) :
    markerRun (d :: m2) (sepRep [] (d :: m2) (j + 1)) = true := by
  rw [sepRep_succ, markerRun_append]
  exact runAux_sepTail_cat d m2 hd1 hd2 j

theorem countAux_skip (m : List Char) :
    ∀ (l s : List Char), countAux m l.length (l ++ s) = countAux m 0 s := by
  intro l
  induction l with
  | nil => intro s; rfl
  | cons c l2 ih =>
    intro s
    rw [List.cons_append]
    show countAux m l2.length (l2 ++ s) = _
    exact ih s

theorem isPrefixOf_append_self (m s : List Char) :
    m.isPrefixOf (m ++ s) = true := by
  induction m with
  | nil => simp [List.isPrefixOf]
  | cons d m2 ih =>
    rw [List.cons_append]
    show (d == d && m2.isPrefixOf (m2 ++ s)) = true
    simp [ih]

theorem countAux_start (d : Char) (m2 s : List Char) :
    countAux (d :: m2) 0 ((d :: m2) ++ s) = 1 + countAux (d :: m2) 0 s := by
  rw [List.cons_append]
  show (if (d :: m2) ≠ [] ∧ (d :: m2).isPrefixOf (d :: (m2 ++ s)) then
      1 + countAux (d :: m2) ((d :: m2).length - 1) (m2 ++ s)
    else countAux (d :: m2) 0 (m2 ++ s)) = _
  rw [if_pos ⟨by simp, by rw [← List.cons_append]; exact
    isPrefixOf_append_self (d :: m2) s⟩]
  rw [show (d :: m2).length - 1 = m2.length from by simp]
  rw [countAux_skip]

theorem countAux_skip_char (d : Char) (m2 : List Char) (c : Char)
    (s : List Char) (hc : c ≠ d) :
    countAux (d :: m2) 0 (c :: s) = countAux (d :: m2) 0 s := by
  show (if (d :: m2) ≠ [] ∧ (d :: m2).isPrefixOf (c :: s) then
      1 + countAux (d :: m2) ((d :: m2).length - 1) s
    else countAux (d :: m2) 0 s) = _
  rw [if_neg]
  rintro ⟨-, hp⟩
  have hb : (d == c && m2.isPrefixOf s) = true := hp
  simp only [Bool.and_eq_true, beq_iff_eq] at hb
  exact hc hb.1.symm

theorem countAux_sepTail_space (d : Char) (m2 : List Char)
    (hd : ' ' ≠ d) :
    ∀ j : Nat, countAux (d :: m2) 0 (sepTail [' '] (d :: m2) j) = j := by
  intro j
  induction j with
  | zero => rfl
  | succ i ih =>
    show countAux (d :: m2) 0 (' ' :: sepRep [' '] (d :: m2) (i + 1)) = i + 1
    rw [countAux_skip_char d m2 ' ' _ hd, sepRep_succ, countAux_start, ih]
    omega

theorem countAux_sepTail_cat (d : Char) (m2 : List Char) :
    ∀ j : Nat, countAux (d :: m2) 0 (sepTail [] (d :: m2) j) = j := by
  intro j
  induction j with
  | zero => rfl
  | succ i ih =>
    show countAux (d :: m2) 0 ([] ++ sepRep [] (d :: m2) (i + 1)) = i + 1
    rw [List.nil_append, sepRep_succ, countAux_start, ih]
    omega

theorem countOccs_sepRep_space (d : Char) (m2 : List Char)
    (hd : ' ' ≠ d) (j : Nat) :
    countOccs (d :: m2) (sepRep [' '] (d :: m2) (j + 1)) = j + 1 := by
  unfold countOccs
  rw [sepRep_succ, countAux_start, countAux_sepTail_space d m2 hd]
  omega

theorem countOccs_sepRep_cat (d : Char) (m2 : List Char) (j : Nat) :
    countOccs (d :: m2) (sepRep [] (d :: m2) (j + 1)) = j + 1 := by
  unfold countOccs
  rw [sepRep_succ, countAux_start, countAux_sepTail_cat]
  omega

theorem trimSpaces_id (l : List Char) (hh : l.head? ≠ some ' ')
    (hl : l.getLast? ≠ some ' ') : trimSpaces l = l := by
  unfold trimSpaces
  have h1 : l.dropWhile (· = ' ') = l := by
    cases l with
    | nil => rfl
    | cons c l2 =>
      have hc : ¬ (c = ' ') := fun he => hh (by simp [he])
      simp [List.dropWhile_cons, hc]
  rw [h1]
  have h2 : l.reverse.dropWhile (· = ' ') = l.reverse := by
    cases hr : l.reverse with
    | nil => rfl
    | cons c l2 =>
      have hlast : l.getLast? = some c := by
        rw [← List.head?_reverse, hr]; rfl
      have hc : ¬ (c = ' ') := fun he => hl (by rw [hlast, he])
      simp [List.dropWhile_cons, hc]
  rw [h2, List.reverse_reverse]

theorem sepRep_chars (sep m : List Char) :
    ∀ (k : Nat) (c : Char), c ∈ sepRep sep m k → c ∈ m ∨ c ∈ sep
  | 0, c, h => absurd h (List.not_mem_nil c)
  | 1, _, h => Or.inl h
  | k + 2, c, h => by
    rw [show sepRep sep m (k + 2) = m ++ sep ++ sepRep sep m (k + 1) from rfl,
        List.append_assoc] at h
    rcases List.mem_append.mp h with h1 | h1
    · exact Or.inl h1
    rcases List.mem_append.mp h1 with h2 | h2
    · exact Or.inr h2
    · exact sepRep_chars sep m (k + 1) c h2

theorem sepRep_head (sep : List Char) (d : Char) (m2 : List Char) (k : Nat) :
    (sepRep sep (d :: m2) (k + 1)).head? = some d := by
  rw [sepRep_succ]; rfl

theorem sepRep_last (sep : List Char) (d : Char) (m2 : List Char) :
    ∀ k : Nat, (sepRep sep (d :: m2) (k + 1)).getLast? = (d :: m2).getLast?
  | 0 => rfl
  | k + 1 => by
    have hne : sepRep sep (d :: m2) (k + 1) ≠ [] := by
      rw [sepRep_succ]; simp
    rw [show sepRep sep (d :: m2) (k + 1 + 1)
          = (d :: m2) ++ sep ++ sepRep sep (d :: m2) (k + 1) from rfl,
        List.append_assoc,
        List.getLast?_append_of_ne_nil _ (by simp [hne]),
        List.getLast?_append_of_ne_nil _ hne,
        sepRep_last sep d m2 k]

theorem filter_sepRep_hyphen (m : List Char)
    (hall : ∀ c ∈ m, allowedChar c = true) :
    ∀ k : Nat, (sepRep ['-'] m k).filter allowedChar = sepRep [] m k
  | 0 => rfl
  | 1 => List.filter_eq_self.mpr hall
  | k + 2 => by
    rw [show sepRep ['-'] m (k + 2)
          = m ++ ['-'] ++ sepRep ['-'] m (k + 1) from rfl,
        show sepRep [] m (k + 2)
          = m ++ [] ++ sepRep [] m (k + 1) from rfl,
        List.filter_append, List.filter_append,
        List.filter_eq_self.mpr hall,
        filter_sepRep_hyphen m hall (k + 1),
        show List.filter allowedChar ['-'] = [] from rfl]

theorem normalizeLine_sepRep_id (sep m : List Char) (k : Nat)
    (hall : ∀ c : Char, c ∈ m ∨ c ∈ sep →
      allowedChar c = true ∧ Char.toLower c = c)
    (hh : m.head? ≠ some ' ') (hl : m.getLast? ≠ some ' ') (hne : m ≠ []) :
    normalizeLine (sepRep sep m (k + 1)) = sepRep sep m (k + 1) := by
  cases m with
  | nil => exact absurd rfl hne
  | cons d m2 =>
    unfold normalizeLine
    rw [List.filter_eq_self.mpr
          (fun a ha => (hall a (sepRep_chars sep (d :: m2) (k + 1) a ha)).1),
        trimSpaces_id _ (by rw [sepRep_head]; exact hh)
          (by rw [sepRep_last]; exact hl),
        List.map_congr_left
          (fun a ha => (hall a (sepRep_chars sep (d :: m2) (k + 1) a ha)).2),
        List.map_id']

theorem normalizeLine_sepRep_hyphen (m : List Char) (k : Nat)
    (hall : ∀ c ∈ m, allowedChar c = true ∧ Char.toLower c = c)
    (hh : m.head? ≠ some ' ') (hl : m.getLast? ≠ some ' ') (hne : m ≠ []) :
    normalizeLine (sepRep ['-'] m (k + 1)) = sepRep [] m (k + 1) := by
  cases m with
  | nil => exact absurd rfl hne
  | cons d m2 =>
    unfold normalizeLine
    rw [filter_sepRep_hyphen (d :: m2) (fun c hc => (hall c hc).1) (k + 1),
        trimSpaces_id _ (by rw [sepRep_head]; exact hh)
          (by rw [sepRep_last]; exact hl),
        List.map_congr_left
          (fun a ha => (hall a ((sepRep_chars [] (d :: m2) (k + 1) a
            ha).resolve_right (List.not_mem_nil a))).2),
        List.map_id']

theorem markerRun_ne_head (e : Char) (p2 : List Char) (c : Char)
    (s2 : List Char) (h : c ≠ e) : markerRun (e :: p2) (c :: s2) = false := by
  simp [markerRun, h]

theorem markerRun_sepRep_ne (e : Char) (p2 : List Char) (sep : List Char)
    (d : Char) (m2 : List Char) (j : Nat) (h : d ≠ e) :
    markerRun (e :: p2) (sepRep sep (d :: m2) (j + 1)) = false := by
  rw [sepRep_succ]
  exact markerRun_ne_head e p2 d _ h

theorem markerRun_woah_cons (s : List Char) :
    markerRun "woah".data ('w' :: 'o' :: 'o' :: s) = false := rfl

theorem markerRun_woah_woo (sep : List Char) (j : Nat) :
    markerRun "woah".data (sepRep sep ['w', 'o', 'o'] (j + 1)) = false := by
  rw [sepRep_succ]
  exact markerRun_woah_cons _

theorem markerRun_hey_cons (s : List Char) :
    markerRun "hey".data ('h' :: 'a' :: s) = false := rfl

theorem markerRun_hey_ha (sep : List Char) (j : Nat) :
    markerRun "hey".data (sepRep sep ['h', 'a'] (j + 1)) = false := by
  rw [sepRep_succ]
  exact markerRun_hey_cons _

theorem markerRun_sepRep_sc (d : Char) (m2 : List Char) (hd1 : d ≠ ' ')
    (hd2 : d ≠ '-') (sep : List Char) (hs : sep = [' '] ∨ sep = []) (j : Nat) :
    markerRun (d :: m2) (sepRep sep (d :: m2) (j + 1)) = true := by
  rcases hs with rfl | rfl
  · exact markerRun_sepRep_space d m2 j
  · exact markerRun_sepRep_cat d m2 hd1 hd2 j

theorem countOccs_sepRep_sc (d : Char) (m2 : List Char) (hd : ' ' ≠ d)
    (sep : List Char) (hs : sep = [' '] ∨ sep = []) (j : Nat) :
    countOccs (d :: m2) (sepRep sep (d :: m2) (j + 1)) = j + 1 := by
  rcases hs with rfl | rfl
  · exact countOccs_sepRep_space d m2 hd j
  · exact countOccs_sepRep_cat d m2 j

theorem ifDM_none (norm p : List Char) (h : markerRun p norm = false) :
    (if markerRun p norm then some (DM.mk p (countOccs p norm)) else none)
      = none := by
  simp [h]

theorem ifDM_some (norm p : List Char) (h : markerRun p norm = true) (n : Nat)
    (hn : countOccs p norm = n) :
    (if markerRun p norm then some (DM.mk p (countOccs p norm)) else none)
      = some ⟨p, n⟩ := by
  simp [h, hn]

theorem findSome?_pre (f : List Char → Option DM) :
    ∀ (pre : List (List Char)) (m : List Char) (post : List (List Char))
      (b : DM), (∀ p ∈ pre, f p = none) → f m = some b →
      (pre ++ m :: post).findSome? f = some b
  | [], m, post, b, _, h2 => by
    rw [List.nil_append, List.findSome?_cons, h2]
  | a :: pre2, m, post, b, h1, h2 => by
    rw [List.cons_append, List.findSome?_cons, h1 a (List.mem_cons_self a _)]
    exact findSome?_pre f pre2 m post b
      (fun p hp => h1 p (List.mem_cons_of_mem a hp)) h2

theorem findSome_sepRep (sep : List Char) (hs : sep = [' '] ∨ sep = [])
    (m : List Char) (hm : m ∈ DISCOURSE_MARKERS) (j : Nat) :
    List.findSome? (fun p =>
      if markerRun p (sepRep sep m (j + 1)) then
        some (DM.mk p (countOccs p (sepRep sep m (j + 1)))) else none)
      DISCOURSE_MARKERS = some ⟨m, j + 1⟩ := by
  simp only [DISCOURSE_MARKERS, List.mem_cons, List.not_mem_nil, or_false] at hm
  rcases hm with rfl | rfl | rfl | rfl | rfl | rfl | rfl | rfl | rfl | rfl
  · exact findSome?_pre _
      ([])
      "na".data
      (["la".data, "oh".data, "yeah".data, "woah".data, "hey".data, "uh".data, "woo".data, "ha".data, "mm".data])
      ⟨"na".data, j + 1⟩
      (fun p hp => absurd hp (List.not_mem_nil p))
      (ifDM_some _ _
        (markerRun_sepRep_sc 'n' ['a'] (by decide) (by decide) sep hs j)
        _ (countOccs_sepRep_sc 'n' ['a'] (by decide) sep hs j))
  · exact findSome?_pre _
      (["na".data])
      "la".data
      (["oh".data, "yeah".data, "woah".data, "hey".data, "uh".data, "woo".data, "ha".data, "mm".data])
      ⟨"la".data, j + 1⟩
      (by intro p hp
          simp only [List.mem_cons, List.not_mem_nil, or_false] at hp
          rcases hp with rfl
          · exact ifDM_none _ _
              (markerRun_sepRep_ne 'n' ['a'] sep 'l' ['a'] j (by decide)))
      (ifDM_some _ _
        (markerRun_sepRep_sc 'l' ['a'] (by decide) (by decide) sep hs j)
        _ (countOccs_sepRep_sc 'l' ['a'] (by decide) sep hs j))
  · exact findSome?_pre _
      (["na".data, "la".data])
      "oh".data
      (["yeah".data, "woah".data, "hey".data, "uh".data, "woo".data, "ha".data, "mm".data])
      ⟨"oh".data, j + 1⟩
      (by intro p hp
          simp only [List.mem_cons, List.not_mem_nil, or_false] at hp
          rcases hp with rfl | rfl
          · exact ifDM_none _ _
              (markerRun_sepRep_ne 'n' ['a'] sep 'o' ['h'] j (by decide))
          · exact ifDM_none _ _
              (markerRun_sepRep_ne 'l' ['a'] sep 'o' ['h'] j (by decide)))
      (ifDM_some _ _
        (markerRun_sepRep_sc 'o' ['h'] (by decide) (by decide) sep hs j)
        _ (countOccs_sepRep_sc 'o' ['h'] (by decide) sep hs j))
  · exact findSome?_pre _
      (["na".data, "la".data, "oh".data])
      "yeah".data
      (["woah".data, "hey".data, "uh".data, "woo".data, "ha".data, "mm".data])
      ⟨"yeah".data, j + 1⟩
      (by intro p hp
          simp only [List.mem_cons, List.not_mem_nil, or_false] at hp
          rcases hp with rfl | rfl | rfl
          · exact ifDM_none _ _
              (markerRun_sepRep_ne 'n' ['a'] sep 'y' ['e', 'a', 'h'] j (by decide))
          · exact ifDM_none _ _
              (markerRun_sepRep_ne 'l' ['a'] sep 'y' ['e', 'a', 'h'] j (by decide))
          · exact ifDM_none _ _
              (markerRun_sepRep_ne 'o' ['h'] sep 'y' ['e', 'a', 'h'] j (by decide)))
      (ifDM_some _ _
        (markerRun_sepRep_sc 'y' ['e', 'a', 'h'] (by decide) (by decide) sep hs j)
        _ (countOccs_sepRep_sc 'y' ['e', 'a', 'h'] (by decide) sep hs j))
  · exact findSome?_pre _
      (["na".data, "la".data, "oh".data, "yeah".data])
      "woah".data
      (["hey".data, "uh".data, "woo".data, "ha".data, "mm".data])
      ⟨"woah".data, j + 1⟩
      (by intro p hp
          simp only [List.mem_cons, List.not_mem_nil, or_false] at hp
          rcases hp with rfl | rfl | rfl | rfl
          · exact ifDM_none _ _
              (markerRun_sepRep_ne 'n' ['a'] sep 'w' ['o', 'a', 'h'] j (by decide))
          · exact ifDM_none _ _
              (markerRun_sepRep_ne 'l' ['a'] sep 'w' ['o', 'a', 'h'] j (by decide))
          · exact ifDM_none _ _
              (markerRun_sepRep_ne 'o' ['h'] sep 'w' ['o', 'a', 'h'] j (by decide))
          · exact ifDM_none _ _
              (markerRun_sepRep_ne 'y' ['e', 'a', 'h'] sep 'w' ['o', 'a', 'h'] j (by decide)))
      (ifDM_some _ _
        (markerRun_sepRep_sc 'w' ['o', 'a', 'h'] (by decide) (by decide) sep hs j)
        _ (countOccs_sepRep_sc 'w' ['o', 'a', 'h'] (by decide) sep hs j))
  · exact findSome?_pre _
      (["na".data, "la".data, "oh".data, "yeah".data, "woah".data])
      "hey".data
      (["uh".data, "woo".data, "ha".data, "mm".data])
      ⟨"hey".data, j + 1⟩
      (by intro p hp
          simp only [List.mem_cons, List.not_mem_nil, or_false] at hp
          rcases hp with rfl | rfl | rfl | rfl | rfl
          · exact ifDM_none _ _
              (markerRun_sepRep_ne 'n' ['a'] sep 'h' ['e', 'y'] j (by decide))
          · exact ifDM_none _ _
              (markerRun_sepRep_ne 'l' ['a'] sep 'h' ['e', 'y'] j (by decide))
          · exact ifDM_none _ _
              (markerRun_sepRep_ne 'o' ['h'] sep 'h' ['e', 'y'] j (by decide))
          · exact ifDM_none _ _
              (markerRun_sepRep_ne 'y' ['e', 'a', 'h'] sep 'h' ['e', 'y'] j (by decide))
          · exact ifDM_none _ _
              (markerRun_sepRep_ne 'w' ['o', 'a', 'h'] sep 'h' ['e', 'y'] j (by decide)))
      (ifDM_some _ _
        (markerRun_sepRep_sc 'h' ['e', 'y'] (by decide) (by decide) sep hs j)
        _ (countOccs_sepRep_sc 'h' ['e', 'y'] (by decide) sep hs j))
  · exact findSome?_pre _
      (["na".data, "la".data, "oh".data, "yeah".data, "woah".data, "hey".data])
      "uh".data
      (["woo".data, "ha".data, "mm".data])
      ⟨"uh".data, j + 1⟩
      (by intro p hp
          simp only [List.mem_cons, List.not_mem_nil, or_false] at hp
          rcases hp with rfl | rfl | rfl | rfl | rfl | rfl
          · exact ifDM_none _ _
              (markerRun_sepRep_ne 'n' ['a'] sep 'u' ['h'] j (by decide))
          · exact ifDM_none _ _
              (markerRun_sepRep_ne 'l' ['a'] sep 'u' ['h'] j (by decide))
          · exact ifDM_none _ _
              (markerRun_sepRep_ne 'o' ['h'] sep 'u' ['h'] j (by decide))
          · exact ifDM_none _ _
              (markerRun_sepRep_ne 'y' ['e', 'a', 'h'] sep 'u' ['h'] j (by decide))
          · exact ifDM_none _ _
              (markerRun_sepRep_ne 'w' ['o', 'a', 'h'] sep 'u' ['h'] j (by decide))
          · exact ifDM_none _ _
              (markerRun_sepRep_ne 'h' ['e', 'y'] sep 'u' ['h'] j (by decide)))
      (ifDM_some _ _
        (markerRun_sepRep_sc 'u' ['h'] (by decide) (by decide) sep hs j)
        _ (countOccs_sepRep_sc 'u' ['h'] (by decide) sep hs j))
  · exact findSome?_pre _
      (["na".data, "la".data, "oh".data, "yeah".data, "woah".data, "hey".data, "uh".data])
      "woo".data
      (["ha".data, "mm".data])
      ⟨"woo".data, j + 1⟩
      (by intro p hp
          simp only [List.mem_cons, List.not_mem_nil, or_false] at hp
          rcases hp with rfl | rfl | rfl | rfl | rfl | rfl | rfl
          · exact ifDM_none _ _
              (markerRun_sepRep_ne 'n' ['a'] sep 'w' ['o', 'o'] j (by decide))
          · exact ifDM_none _ _
              (markerRun_sepRep_ne 'l' ['a'] sep 'w' ['o', 'o'] j (by decide))
          · exact ifDM_none _ _
              (markerRun_sepRep_ne 'o' ['h'] sep 'w' ['o', 'o'] j (by decide))
          · exact ifDM_none _ _
              (markerRun_sepRep_ne 'y' ['e', 'a', 'h'] sep 'w' ['o', 'o'] j (by decide))
          · exact ifDM_none _ _ (markerRun_woah_woo sep j)
          · exact ifDM_none _ _
              (markerRun_sepRep_ne 'h' ['e', 'y'] sep 'w' ['o', 'o'] j (by decide))
          · exact ifDM_none _ _
              (markerRun_sepRep_ne 'u' ['h'] sep 'w' ['o', 'o'] j (by decide)))
      (ifDM_some _ _
        (markerRun_sepRep_sc 'w' ['o', 'o'] (by decide) (by decide) sep hs j)
        _ (countOccs_sepRep_sc 'w' ['o', 'o'] (by decide) sep hs j))
  · exact findSome?_pre _
      (["na".data, "la".data, "oh".data, "yeah".data, "woah".data, "hey".data, "uh".data, "woo".data])
      "ha".data
      (["mm".data])
      ⟨"ha".data, j + 1⟩
      (by intro p hp
          simp only [List.mem_cons, List.not_mem_nil, or_false] at hp
          rcases hp with rfl | rfl | rfl | rfl | rfl | rfl | rfl | rfl
          · exact ifDM_none _ _
              (markerRun_sepRep_ne 'n' ['a'] sep 'h' ['a'] j (by decide))
          · exact ifDM_none _ _
              (markerRun_sepRep_ne 'l' ['a'] sep 'h' ['a'] j (by decide))
          · exact ifDM_none _ _
              (markerRun_sepRep_ne 'o' ['h'] sep 'h' ['a'] j (by decide))
          · exact ifDM_none _ _
              (markerRun_sepRep_ne 'y' ['e', 'a', 'h'] sep 'h' ['a'] j (by decide))
          · exact ifDM_none _ _
              (markerRun_sepRep_ne 'w' ['o', 'a', 'h'] sep 'h' ['a'] j (by decide))
          · exact ifDM_none _ _ (markerRun_hey_ha sep j)
          · exact ifDM_none _ _
              (markerRun_sepRep_ne 'u' ['h'] sep 'h' ['a'] j (by decide))
          · exact ifDM_none _ _
              (markerRun_sepRep_ne 'w' ['o', 'o'] sep 'h' ['a'] j (by decide)))
      (ifDM_some _ _
        (markerRun_sepRep_sc 'h' ['a'] (by decide) (by decide) sep hs j)
        _ (countOccs_sepRep_sc 'h' ['a'] (by decide) sep hs j))
  · exact findSome?_pre _
      (["na".data, "la".data, "oh".data, "yeah".data, "woah".data, "hey".data, "uh".data, "woo".data, "ha".data])
      "mm".data
      ([])
      ⟨"mm".data, j + 1⟩
      (by intro p hp
          simp only [List.mem_cons, List.not_mem_nil, or_false] at hp
          rcases hp with rfl | rfl | rfl | rfl | rfl | rfl | rfl | rfl | rfl
          · exact ifDM_none _ _
              (markerRun_sepRep_ne 'n' ['a'] sep 'm' ['m'] j (by decide))
          · exact ifDM_none _ _
              (markerRun_sepRep_ne 'l' ['a'] sep 'm' ['m'] j (by decide))
          · exact ifDM_none _ _
              (markerRun_sepRep_ne 'o' ['h'] sep 'm' ['m'] j (by decide))
          · exact ifDM_none _ _
              (markerRun_sepRep_ne 'y' ['e', 'a', 'h'] sep 'm' ['m'] j (by decide))
          · exact ifDM_none _ _
              (markerRun_sepRep_ne 'w' ['o', 'a', 'h'] sep 'm' ['m'] j (by decide))
          · exact ifDM_none _ _
              (markerRun_sepRep_ne 'h' ['e', 'y'] sep 'm' ['m'] j (by decide))
          · exact ifDM_none _ _
              (markerRun_sepRep_ne 'u' ['h'] sep 'm' ['m'] j (by decide))
          · exact ifDM_none _ _
              (markerRun_sepRep_ne 'w' ['o', 'o'] sep 'm' ['m'] j (by decide))
          · exact ifDM_none _ _
              (markerRun_sepRep_ne 'h' ['a'] sep 'm' ['m'] j (by decide)))
      (ifDM_some _ _
        (markerRun_sepRep_sc 'm' ['m'] (by decide) (by decide) sep hs j)
        _ (countOccs_sepRep_sc 'm' ['m'] (by decide) sep hs j))

/-- **C7.** For every discourse marker `m` in the default list and every
repetition count `k ≥ 1`, the discourse detector returns the same result —
marker `m` with count `k` — on the line consisting of `k` copies of `m`,
whether the copies are separated by single spaces, by single hyphens, or by
nothing at all. -/
theorem C7_detector_separator_invariance (m : List Char)
    (hm : m ∈ DISCOURSE_MARKERS) (k : Nat) (hk : 1 ≤ k) (sep : List Char)
    (hsep : sep ∈ [[' '], ['-'], ([] : List Char)]) :
    isDiscourseMarkerLine (sepRep sep m k) DISCOURSE_MARKERS
      = some ⟨m, k⟩ := by
  obtain ⟨j, rfl⟩ : ∃ j, k = j + 1 := ⟨k - 1, by omega⟩
  have hfacts : (∀ c ∈ m ++ [' '], allowedChar c = true ∧ Char.toLower c = c)
      ∧ m.head? ≠ some ' ' ∧ m.getLast? ≠ some ' ' ∧ m ≠ [] := by
    simp only [DISCOURSE_MARKERS, List.mem_cons, List.not_mem_nil, or_false]
      at hm
    rcases hm with rfl | rfl | rfl | rfl | rfl | rfl | rfl | rfl | rfl | rfl <;>
      exact ⟨by decide, by decide, by decide, by decide⟩
  obtain ⟨hall, hh, hl, hne⟩ := hfacts
  simp only [List.mem_cons, List.not_mem_nil, or_false] at hsep
  rcases hsep with rfl | rfl | rfl
  · simp only [isDiscourseMarkerLine]
    simp only [normalizeLine_sepRep_id [' '] m j
      (fun c hc => hall c (List.mem_append.mpr hc)) hh hl hne]
    exact findSome_sepRep [' '] (Or.inl rfl) m hm j
  · simp only [isDiscourseMarkerLine]
    simp only [normalizeLine_sepRep_hyphen m j
      (fun c hc => hall c (List.mem_append.mpr (Or.inl hc))) hh hl hne]
    exact findSome_sepRep [] (Or.inr rfl) m hm j
  · simp only [isDiscourseMarkerLine]
    simp only [normalizeLine_sepRep_id [] m j
      (fun c hc => hall c (List.mem_append.mpr
        (Or.inl (hc.resolve_right (List.not_mem_nil c))))) hh hl hne]
    exact findSome_sepRep [] (Or.inr rfl) m hm j

/-- Witness for C7: the marker `"na"` repeated three times with hyphen
separators is detected as `("na", 3)`. -/
theorem C7_witness :
    "na".data ∈ DISCOURSE_MARKERS ∧ 1 ≤ 3
      ∧ (['-'] : List Char) ∈ [[' '], ['-'], ([] : List Char)]
      ∧ isDiscourseMarkerLine (sepRep ['-'] "na".data 3) DISCOURSE_MARKERS
          = some ⟨"na".data, 3⟩ :=
  ⟨by decide, by decide, by decide,
    C7_detector_separator_invariance "na".data (by decide) 3 (by decide)
      ['-'] (by decide)⟩
